import Mathlib

set_option autoImplicit false

namespace ScoreK8s

/-!
A shallow embedding of the score-k8s resource-resolution and manifest-synthesis
pipeline.  Go strings are modelled as lists of bytes (Nat), matching the
byte-oriented semantics of strings.Index, strings.Split and strings.Compare.
-/

abbrev Bytes := List Nat

/-- UTF-8 encoding of a single character, used to spell concrete byte strings. -/
def utf8Bytes (c : Char) : Bytes :=
  let n := c.toNat
  if n < 0x80 then [n]
  else if n < 0x800 then [0xC0 + n / 64, 0x80 + n % 64]
  else if n < 0x10000 then [0xE0 + n / 4096, 0x80 + n / 64 % 64, 0x80 + n % 64]
  else [0xF0 + n / 262144, 0x80 + n / 4096 % 64, 0x80 + n / 64 % 64, 0x80 + n % 64]

/-- The bytes of a Lean string literal, as Go would store it. -/
def strBytes (s : String) : Bytes :=
  s.data.foldr (fun c acc => utf8Bytes c ++ acc) []

/-- Byte 0x5F, the underscore separator used by the secret-reference codec. -/
def underscoreByte : Nat := 0x5F

/-- An apostrophe character, used to build error messages without literal quotes. -/
def squote : String := String.mk [Char.ofNat 39]

/-- magicPrefix from internal/secrets.go: the UTF-8 bytes of the opening sentinel. -/
def magicPrefixB : Bytes := [0xF0, 0x9F, 0x94, 0x90, 0xF0, 0x9F, 0x92, 0xAC]

/-- magicSuffix from internal/secrets.go: the UTF-8 bytes of the closing sentinel. -/
def magicSuffixB : Bytes := [0xF0, 0x9F, 0x92, 0xAC, 0xF0, 0x9F, 0x94, 0x90]

theorem magicPrefixB_eq_strBytes : magicPrefixB = strBytes "🔐💬" := by decide

theorem magicSuffixB_eq_strBytes : magicSuffixB = strBytes "💬🔐" := by decide

/-- Model of Go strings.Index for a nonempty pattern: the index of the first
occurrence of pat in s, or none when pat does not occur (Go returns -1). -/
def firstOcc (pat : Bytes) : Bytes → Option Nat
  | [] => if pat.isPrefixOf [] then some 0 else none
  | b :: t => if pat.isPrefixOf (b :: t) then some 0 else (firstOcc pat t).map (· + 1)

theorem firstOcc_cons {pat : Bytes} {b : Nat} {t : Bytes} :
    firstOcc pat (b :: t) =
      if pat.isPrefixOf (b :: t) then some 0 else (firstOcc pat t).map (· + 1) := rfl

theorem firstOcc_isPrefix {pat s : Bytes} {i : Nat} (h : firstOcc pat s = some i) :
    pat <+: s.drop i := by
  induction s generalizing i with
  | nil =>
    simp only [firstOcc] at h
    split at h
    · rename_i hp
      rw [List.isPrefixOf_iff_prefix] at hp
      simp only [Option.some.injEq] at h
      subst h
      simpa using hp
    · exact absurd h (by simp)
  | cons b t ih =>
    rw [firstOcc_cons] at h
    split at h
    · rename_i hp
      rw [List.isPrefixOf_iff_prefix] at hp
      simp only [Option.some.injEq] at h
      subst h
      simpa using hp
    · match ho : firstOcc pat t with
      | none => rw [ho] at h; simp at h
      | some j =>
        rw [ho] at h
        have h' : j + 1 = i := by simpa using h
        subst h'
        simpa using ih ho

theorem firstOcc_le {pat s : Bytes} {i : Nat} (hne : pat ≠ []) (h : firstOcc pat s = some i) :
    i + pat.length ≤ s.length := by
  have hp := firstOcc_isPrefix h
  have hlen : pat.length ≤ (s.drop i).length := hp.length_le
  have hi : i ≤ s.length := by
    by_contra hc
    push_neg at hc
    have : s.drop i = [] := List.drop_eq_nil_of_le (le_of_lt hc)
    rw [this] at hp
    exact hne (List.prefix_nil.mp hp)
  simp only [List.length_drop] at hlen
  omega

theorem firstOcc_decomp {pat s : Bytes} {i : Nat} (h : firstOcc pat s = some i) :
    s = s.take i ++ pat ++ s.drop (i + pat.length) := by
  have hp := firstOcc_isPrefix h
  obtain ⟨t, ht⟩ := hp
  have hdrop : s.drop (i + pat.length) = t := by
    have h1 : (s.drop i).drop pat.length = t := by
      rw [← ht]; simp
    calc s.drop (i + pat.length) = (s.drop i).drop pat.length :=
          (List.drop_drop pat.length i s).symm
    _ = t := h1
  rw [hdrop]
  conv_lhs => rw [← List.take_append_drop i s]
  rw [← ht]
  simp

theorem firstOcc_of_isPrefixOf {pat s : Bytes} (h : pat.isPrefixOf s = true) :
    firstOcc pat s = some 0 := by
  cases s with
  | nil => simp [firstOcc, h]
  | cons b t => simp [firstOcc, h]

/-- If every byte of r is below 0x80 then a pattern starting with byte 0xF0
cannot begin inside r; its first occurrence in r ++ rest is the first
occurrence in rest, shifted. -/
theorem firstOcc_ascii_append {pat r rest : Bytes} (hpat : pat.head? = some 0xF0)
    (h : ∀ b ∈ r, b < 0x80) :
    firstOcc pat (r ++ rest) = (firstOcc pat rest).map (· + r.length) := by
  induction r with
  | nil => simp [Option.map_id']
  | cons b t ih =>
    have hb : b < 0x80 := h b (by simp)
    have hnp : pat.isPrefixOf (b :: (t ++ rest)) = false := by
      cases pat with
      | nil => simp at hpat
      | cons p pt =>
        simp only [List.head?_cons, Option.some.injEq] at hpat
        subst hpat
        simp only [List.isPrefixOf_cons₂]
        have : (0xF0 == b) = false := by
          simp only [beq_eq_false_iff_ne, ne_eq]
          omega
        simp [this]
    rw [List.cons_append, firstOcc_cons, hnp]
    simp only [Bool.false_eq_true, if_false]
    rw [ih (fun x hx => h x (by simp [hx]))]
    cases firstOcc pat rest with
    | none => simp
    | some v => simp; omega

theorem magicPrefixB_head? : magicPrefixB.head? = some 0xF0 := by decide

theorem magicSuffixB_head? : magicSuffixB.head? = some 0xF0 := by decide

/-- No occurrence of the opening sentinel inside ascii ++ closing sentinel. -/
theorem firstOcc_prefix_ascii_suffix {r : Bytes} (h : ∀ b ∈ r, b < 0x80) :
    firstOcc magicPrefixB (r ++ magicSuffixB) = none := by
  rw [firstOcc_ascii_append magicPrefixB_head? h]
  have : firstOcc magicPrefixB magicSuffixB = none := by decide
  simp [this]

/-- The first occurrence of the closing sentinel in ascii ++ sentinel ++ rest
is exactly at the end of the ascii run. -/
theorem firstOcc_suffix_after_ascii {r rest : Bytes} (h : ∀ b ∈ r, b < 0x80) :
    firstOcc magicSuffixB (r ++ (magicSuffixB ++ rest)) = some r.length := by
  rw [firstOcc_ascii_append magicSuffixB_head? h]
  have : firstOcc magicSuffixB (magicSuffixB ++ rest) = some 0 := by
    apply firstOcc_of_isPrefixOf
    rw [List.isPrefixOf_iff_prefix]
    exact ⟨rest, rfl⟩
  simp [this]

/-- For a single-byte pattern not occurring in r, the first occurrence in
r ++ [a] ++ rest is at r.length. -/
theorem firstOcc_single_after {a : Nat} {r rest : Bytes} (h : a ∉ r) :
    firstOcc [a] (r ++ (a :: rest)) = some r.length := by
  induction r with
  | nil =>
    apply firstOcc_of_isPrefixOf
    simp [List.isPrefixOf_iff_prefix]
  | cons b t ih =>
    have hb : b ≠ a := by intro hba; exact h (by simp [hba])
    have hnp : List.isPrefixOf [a] (b :: (t ++ (a :: rest))) = false := by
      simp only [List.isPrefixOf_cons₂]
      have : (a == b) = false := by simp [hb.symm]
      simp [this]
    rw [List.cons_append, firstOcc_cons, hnp]
    simp only [Bool.false_eq_true, if_false]
    rw [ih (fun hx => h (by simp [hx]))]
    simp

/-! The secret-reference codec from internal/secrets.go. -/

/-- Fuel-driven worker for the split on the opening sentinel; the fuel only
serves to make the recursion structural and is irrelevant once it is at least
the length of the string. -/
def splitOnMagicPrefixAux : Nat → Bytes → List Bytes
  | 0, s => [s]
  | fuel + 1, s =>
    match firstOcc magicPrefixB s with
    | none => [s]
    | some i => s.take i :: splitOnMagicPrefixAux fuel (s.drop (i + magicPrefixB.length))

/-- Model of strings.Split(s, magicPrefix): split around each leftmost
non-overlapping occurrence of the opening sentinel. -/
def splitOnMagicPrefix (s : Bytes) : List Bytes :=
  splitOnMagicPrefixAux s.length s

theorem firstOcc_magicPrefixB_nil : firstOcc magicPrefixB [] = none := by decide

theorem splitOnMagicPrefixAux_congr :
    ∀ (f1 : Nat) (f2 : Nat) (s : Bytes), s.length ≤ f1 → s.length ≤ f2 →
      splitOnMagicPrefixAux f1 s = splitOnMagicPrefixAux f2 s := by
  intro f1
  induction f1 with
  | zero =>
    intro f2 s h1 h2
    have hs : s = [] := List.eq_nil_of_length_eq_zero (Nat.le_zero.mp h1)
    subst hs
    cases f2 with
    | zero => rfl
    | succ f2 => simp [splitOnMagicPrefixAux, firstOcc_magicPrefixB_nil]
  | succ f1 ih =>
    intro f2 s h1 h2
    cases f2 with
    | zero =>
      have hs : s = [] := List.eq_nil_of_length_eq_zero (Nat.le_zero.mp h2)
      subst hs
      simp [splitOnMagicPrefixAux, firstOcc_magicPrefixB_nil]
    | succ f2 =>
      simp only [splitOnMagicPrefixAux]
      match ho : firstOcc magicPrefixB s with
      | none => rfl
      | some i =>
        have hle := @firstOcc_le magicPrefixB _ _ (by decide) ho
        have h8 : magicPrefixB.length = 8 := by decide
        have hlen : (s.drop (i + magicPrefixB.length)).length ≤ f1 := by
          simp only [List.length_drop]
          omega
        have hlen2 : (s.drop (i + magicPrefixB.length)).length ≤ f2 := by
          simp only [List.length_drop]
          omega
        exact congrArg (s.take i :: ·) (ih f2 _ hlen hlen2)

/-- The one-step unfolding of splitOnMagicPrefix, matching strings.Split. -/
theorem splitOnMagicPrefix_eq (s : Bytes) :
    splitOnMagicPrefix s =
      match firstOcc magicPrefixB s with
      | none => [s]
      | some i => s.take i :: splitOnMagicPrefix (s.drop (i + magicPrefixB.length)) := by
  unfold splitOnMagicPrefix
  cases hn : s.length with
  | zero =>
    have hs : s = [] := List.eq_nil_of_length_eq_zero hn
    subst hs
    simp [splitOnMagicPrefixAux, firstOcc_magicPrefixB_nil]
  | succ n =>
    simp only [splitOnMagicPrefixAux]
    match ho : firstOcc magicPrefixB s with
    | none => rfl
    | some i =>
      have hle := @firstOcc_le magicPrefixB _ _ (by decide) ho
      have h8 : magicPrefixB.length = 8 := by decide
      apply congrArg (s.take i :: ·)
      apply splitOnMagicPrefixAux_congr
      · simp only [List.length_drop]; omega
      · simp

/-- Joining the split parts with the opening sentinel; the separator-join
inverse of splitOnMagicPrefix. -/
def joinWithMagicPrefix : List Bytes → Bytes
  | [] => []
  | h :: t => h ++ (t.map (magicPrefixB ++ ·)).flatten

theorem splitOnMagicPrefix_ne_nil (s : Bytes) : splitOnMagicPrefix s ≠ [] := by
  rw [splitOnMagicPrefix_eq]
  split <;> simp

theorem joinWithMagicPrefix_splitOnMagicPrefix (s : Bytes) :
    joinWithMagicPrefix (splitOnMagicPrefix s) = s := by
  generalize hn : s.length = n
  induction n using Nat.strong_induction_on generalizing s with
  | _ n ih =>
  subst hn
  have key : ∀ r : Bytes, r.length < s.length →
      (List.map (magicPrefixB ++ ·) (splitOnMagicPrefix r)).flatten = magicPrefixB ++ r := by
    intro r hr
    have hjoin : joinWithMagicPrefix (splitOnMagicPrefix r) = r := ih r.length hr r rfl
    match hs : splitOnMagicPrefix r with
    | [] => exact absurd hs (splitOnMagicPrefix_ne_nil r)
    | p :: ps =>
      rw [hs] at hjoin
      simp only [joinWithMagicPrefix] at hjoin
      simp only [List.map_cons, List.flatten_cons, List.append_assoc, hjoin]
  rw [splitOnMagicPrefix_eq]
  split
  · simp [joinWithMagicPrefix]
  · rename_i i h
    have hle := @firstOcc_le magicPrefixB _ _ (by decide) h
    have hlt : (s.drop (i + magicPrefixB.length)).length < s.length := by
      have h8 : magicPrefixB.length = 8 := by decide
      simp only [List.length_drop]
      omega
    simp only [joinWithMagicPrefix]
    rw [key _ hlt]
    conv_rhs => rw [firstOcc_decomp h]
    simp

/-- SecretRef from internal/secrets.go. -/
structure SecretRef where
  name : Bytes
  key : Bytes
deriving DecidableEq, Repr

/-- EncodeSecretReference from internal/secrets.go:
magicPrefix + secret + underscore + key + magicSuffix. -/
def EncodeSecretReference (secret key : Bytes) : Bytes :=
  magicPrefixB ++ secret ++ [underscoreByte] ++ key ++ magicSuffixB

/-- The loop body of DecodeSecretReferences over the parts after the first:
a part containing the closing sentinel yields a reference (split on the first
underscore) and keeps only the text after the sentinel; a part without the
closing sentinel is kept whole; a reference without an underscore is an error. -/
def processParts : List Bytes → Except String (List Bytes × List SecretRef)
  | [] => .ok ([], [])
  | p :: ps =>
    match firstOcc magicSuffixB p with
    | none =>
      match processParts ps with
      | .error e => .error e
      | .ok (segs, refs) => .ok (p :: segs, refs)
    | some si =>
      let r := p.take si
      let rest := p.drop (si + magicSuffixB.length)
      match firstOcc [underscoreByte] r with
      | none => .error ("invalid secret ref: doesn" ++ squote ++ "t contain _")
      | some j =>
        match processParts ps with
        | .error e => .error e
        | .ok (segs, refs) => .ok (rest :: segs, ⟨r.take j, r.drop (j + 1)⟩ :: refs)

/-- DecodeSecretReferences from internal/secrets.go. -/
def DecodeSecretReferences (source : Bytes) : Except String (List Bytes × List SecretRef) :=
  match splitOnMagicPrefix source with
  | [] => .ok ([], [])
  | h :: t =>
    match processParts t with
    | .error e => .error e
    | .ok (segs, refs) => .ok (h :: segs, refs)

/-- Interleaving of the decoded text segments and re-encoded references:
segment 0, reference 0, segment 1, reference 1, and so on; leftover references
or segments are appended at the end. -/
def interleave : List Bytes → List SecretRef → Bytes
  | [], rr => (rr.map (fun r => EncodeSecretReference r.name r.key)).flatten
  | sg :: ss, [] => sg ++ interleave ss []
  | sg :: ss, r :: rr => sg ++ EncodeSecretReference r.name r.key ++ interleave ss rr

/-- Auxiliary interleaving used to relate interleave to the split parts:
reference first, then its trailing segment. -/
def encInterleave : List SecretRef → List Bytes → Bytes
  | [], ss => ss.flatten
  | r :: rr, [] => EncodeSecretReference r.name r.key ++ encInterleave rr []
  | r :: rr, sg :: ss => EncodeSecretReference r.name r.key ++ sg ++ encInterleave rr ss

theorem interleave_nil_left (rr : List SecretRef) :
    interleave [] rr = encInterleave rr [] := by
  induction rr with
  | nil => rfl
  | cons r t ih =>
    rw [encInterleave, ← ih]
    simp [interleave]

theorem interleave_nil_right (ss : List Bytes) :
    interleave ss [] = ss.flatten := by
  induction ss with
  | nil => rfl
  | cons sg t ih => simp [interleave, ih]

theorem interleave_cons (h : Bytes) (ss : List Bytes) (rr : List SecretRef) :
    interleave (h :: ss) rr = h ++ encInterleave rr ss := by
  induction rr generalizing h ss with
  | nil => simp [interleave_nil_right, encInterleave]
  | cons r rr ih =>
    cases ss with
    | nil =>
      rw [show interleave (h :: ([] : List Bytes)) (r :: rr) =
            h ++ EncodeSecretReference r.name r.key ++ interleave [] rr from rfl,
          interleave_nil_left, encInterleave]
      simp
    | cons sg ss => simp [interleave, encInterleave, ih sg ss]

theorem processParts_lengths {ps : List Bytes} {segs : List Bytes} {refs : List SecretRef}
    (h : processParts ps = .ok (segs, refs)) :
    segs.length = ps.length ∧ refs.length ≤ segs.length := by
  induction ps generalizing segs refs with
  | nil =>
    simp only [processParts, Except.ok.injEq, Prod.mk.injEq] at h
    obtain ⟨h1, h2⟩ := h
    subst h1; subst h2
    simp
  | cons p ps ih =>
    simp only [processParts] at h
    split at h
    · split at h
      · exact absurd h (by simp)
      · rename_i segs' refs' hp
        simp only [Except.ok.injEq, Prod.mk.injEq] at h
        obtain ⟨h1, h2⟩ := h
        subst h1; subst h2
        have := ih hp
        constructor
        · simpa using this.1
        · simpa using Nat.le_succ_of_le this.2
    · split at h
      · exact absurd h (by simp)
      · split at h
        · exact absurd h (by simp)
        · rename_i segs' refs' hp
          simp only [Except.ok.injEq, Prod.mk.injEq] at h
          obtain ⟨h1, h2⟩ := h
          subst h1; subst h2
          have := ih hp
          constructor
          · simpa using this.1
          · simpa using Nat.succ_le_succ this.2

theorem processParts_encInterleave {ps : List Bytes} {segs : List Bytes} {refs : List SecretRef}
    (h : processParts ps = .ok (segs, refs)) (hlen : segs.length = refs.length) :
    encInterleave refs segs = (ps.map (magicPrefixB ++ ·)).flatten := by
  induction ps generalizing segs refs with
  | nil =>
    simp only [processParts, Except.ok.injEq, Prod.mk.injEq] at h
    obtain ⟨h1, h2⟩ := h
    subst h1; subst h2
    rfl
  | cons p ps ih =>
    simp only [processParts] at h
    split at h
    · -- no closing sentinel in this part: one more segment than reference,
      -- which contradicts the equal-length hypothesis
      split at h
      · exact absurd h (by simp)
      · rename_i segs' refs' hp
        simp only [Except.ok.injEq, Prod.mk.injEq] at h
        obtain ⟨h1, h2⟩ := h
        subst h1; subst h2
        have hb := (processParts_lengths hp).2
        simp only [List.length_cons] at hlen
        omega
    · rename_i si hsi
      split at h
      · exact absurd h (by simp)
      · rename_i j hj
        split at h
        · exact absurd h (by simp)
        · rename_i segs' refs' hp
          simp only [Except.ok.injEq, Prod.mk.injEq] at h
          obtain ⟨h1, h2⟩ := h
          subst h1; subst h2
          simp only [List.length_cons, Nat.succ.injEq] at hlen
          simp only [encInterleave, List.map_cons, List.flatten_cons]
          rw [ih hp hlen]
          have hdecp : p = p.take si ++ magicSuffixB ++ p.drop (si + magicSuffixB.length) :=
            firstOcc_decomp hsi
          have hdecr : p.take si =
              (p.take si).take j ++ [underscoreByte] ++ (p.take si).drop (j + 1) := by
            have := firstOcc_decomp hj
            simpa using this
          conv_rhs => rw [hdecp]
          conv_rhs => rw [hdecr]
          simp [EncodeSecretReference]

/-- Claim C4 as stated fails: when an opening sentinel has no closing sentinel,
decoding succeeds and silently drops the sentinel, so interleaving cannot
reconstruct the input.  Input: byte 97, the opening sentinel, byte 98. -/
theorem decode_interleave_counterexample :
    DecodeSecretReferences ([97] ++ magicPrefixB ++ [98]) = .ok ([[97], [98]], [])
    ∧ interleave [[97], [98]] [] = [97, 98]
    ∧ [97, 98] ≠ [97] ++ magicPrefixB ++ [98] := by
  refine ⟨?_, by decide, by decide⟩
  rfl

/-- Amended claim C4: whenever decoding succeeds and produced exactly one more
text segment than references (that is, every opening sentinel was matched by a
closing sentinel), interleaving the segments with the re-encoded references
reconstructs the input exactly. -/
theorem decode_interleave_reconstructs (s : Bytes) (segs : List Bytes) (refs : List SecretRef)
    (h : DecodeSecretReferences s = .ok (segs, refs))
    (hlen : segs.length = refs.length + 1) :
    interleave segs refs = s := by
  unfold DecodeSecretReferences at h
  split at h
  · rename_i hs
    exact absurd hs (splitOnMagicPrefix_ne_nil s)
  · rename_i h0 t hs
    split at h
    · exact absurd h (by simp)
    · rename_i segs' refs' hp
      simp only [Except.ok.injEq, Prod.mk.injEq] at h
      obtain ⟨h1, h2⟩ := h
      subst h1; subst h2
      simp only [List.length_cons, Nat.succ.injEq] at hlen
      rw [interleave_cons, processParts_encInterleave hp hlen]
      have := joinWithMagicPrefix_splitOnMagicPrefix s
      rw [hs] at this
      simp only [joinWithMagicPrefix] at this
      exact this

/-- Witness for the amended claim C4 at a concrete encoded reference. -/
theorem decode_interleave_reconstructs_witness :
    interleave [[], []] [⟨[100, 98], [112, 119]⟩] =
      EncodeSecretReference [100, 98] [112, 119] := by
  apply decode_interleave_reconstructs
  · rfl
  · decide

/-- Bytes permitted in a Kubernetes secret name (DNS subdomain): lowercase
letters, digits, dash, dot.  Underscore is not permitted. -/
def isSecretNameByte (b : Nat) : Prop :=
  (97 ≤ b ∧ b ≤ 122) ∨ (48 ≤ b ∧ b ≤ 57) ∨ b = 45 ∨ b = 46

/-- Bytes permitted in a Kubernetes secret data key, excluding underscore as
required by the encoding (letters, digits, dash, dot). -/
def isSecretKeyByte (b : Nat) : Prop :=
  (97 ≤ b ∧ b ≤ 122) ∨ (65 ≤ b ∧ b ≤ 90) ∨ (48 ≤ b ∧ b ≤ 57) ∨ b = 45 ∨ b = 46

instance (b : Nat) : Decidable (isSecretNameByte b) := by
  unfold isSecretNameByte; infer_instance

instance (b : Nat) : Decidable (isSecretKeyByte b) := by
  unfold isSecretKeyByte; infer_instance

theorem isSecretNameByte_lt {b : Nat} (h : isSecretNameByte b) : b < 0x80 := by
  rcases h with h | h | h | h <;> omega

theorem isSecretKeyByte_lt {b : Nat} (h : isSecretKeyByte b) : b < 0x80 := by
  rcases h with h | h | h | h | h <;> omega

theorem isSecretNameByte_ne_underscore {b : Nat} (h : isSecretNameByte b) :
    b ≠ underscoreByte := by
  rcases h with h | h | h | h <;> simp [underscoreByte] <;> omega

/-- Claim C5: decoding an encoded reference whose name and key satisfy the
Kubernetes naming rules (and contain no underscore) yields exactly the two
empty text segments and the single reference, with no error. -/
theorem DecodeSecretReferences_EncodeSecretReference (name key : Bytes)
    (hn : ∀ b ∈ name, isSecretNameByte b) (hk : ∀ b ∈ key, isSecretKeyByte b) :
    DecodeSecretReferences (EncodeSecretReference name key) =
      .ok ([[], []], [⟨name, key⟩]) := by
  have hr : ∀ b ∈ name ++ [underscoreByte] ++ key, b < 0x80 := by
    intro b hb
    simp only [List.append_assoc, List.mem_append, List.mem_singleton] at hb
    rcases hb with hb | hb | hb
    · exact isSecretNameByte_lt (hn b hb)
    · subst hb; simp [underscoreByte]
    · exact isSecretKeyByte_lt (hk b hb)
  have hnu : underscoreByte ∉ name := by
    intro hmem
    exact isSecretNameByte_ne_underscore (hn _ hmem) rfl
  set r : Bytes := name ++ [underscoreByte] ++ key with hr_def
  have henc : EncodeSecretReference name key = magicPrefixB ++ (r ++ magicSuffixB) := by
    simp [EncodeSecretReference, hr_def]
  -- the split produces exactly two parts: the empty head and r ++ suffix
  have hsplit : splitOnMagicPrefix (EncodeSecretReference name key)
      = [[], r ++ magicSuffixB] := by
    have h0 : firstOcc magicPrefixB (magicPrefixB ++ (r ++ magicSuffixB)) = some 0 := by
      apply firstOcc_of_isPrefixOf
      rw [List.isPrefixOf_iff_prefix]
      exact ⟨r ++ magicSuffixB, rfl⟩
    have hdrop : (magicPrefixB ++ (r ++ magicSuffixB)).drop (0 + magicPrefixB.length)
        = r ++ magicSuffixB := by
      simp [List.drop_left]
    rw [henc]
    rw [splitOnMagicPrefix_eq]
    simp only [h0, hdrop]
    rw [splitOnMagicPrefix_eq]
    simp only [firstOcc_prefix_ascii_suffix hr]
    rfl
  unfold DecodeSecretReferences
  rw [hsplit]
  have hocc : firstOcc magicSuffixB (r ++ magicSuffixB) = some r.length := by
    have := @firstOcc_suffix_after_ascii _ [] hr
    simpa using this
  have htake : (r ++ magicSuffixB).take r.length = r := List.take_left r magicSuffixB
  have hdropall : (r ++ magicSuffixB).drop (r.length + magicSuffixB.length) = [] := by
    apply List.drop_eq_nil_of_le
    simp
  have hu : firstOcc [underscoreByte] r = some name.length := by
    have : r = name ++ (underscoreByte :: key) := by simp [hr_def]
    rw [this]
    exact firstOcc_single_after hnu
  have hname : r.take name.length = name := by
    have : r = name ++ (underscoreByte :: key) := by simp [hr_def]
    rw [this]
    exact List.take_left name (underscoreByte :: key)
  have hkey : r.drop (name.length + 1) = key := by
    have h1 : r = (name ++ [underscoreByte]) ++ key := by simp [hr_def]
    have h2 : (name ++ [underscoreByte]).length = name.length + 1 := by simp
    rw [h1, ← h2]
    exact List.drop_left (name ++ [underscoreByte]) key
  simp only [processParts, hocc, hu, htake, hname, hkey, hdropall]

/-- Witness for claim C5 at the concrete pair db-creds / password. -/
theorem DecodeSecretReferences_EncodeSecretReference_witness :
    DecodeSecretReferences
        (EncodeSecretReference (strBytes "db-creds") (strBytes "password")) =
      .ok ([[], []], [⟨strBytes "db-creds", strBytes "password"⟩]) := by
  apply DecodeSecretReferences_EncodeSecretReference
  · decide
  · decide

/-! Dynamic YAML/JSON values, the universal currency of the pipeline. -/

inductive Value where
  | null
  | boolean (b : Bool)
  | num (n : Int)
  | str (s : Bytes)
  | arr (items : List Value)
  | obj (fields : List (String × Value))

/-- The per-string test of FindFirstUnresolvedSecretRef in internal/secrets.go:
with pp the index of the first opening sentinel and sp the index of the first
closing sentinel (Go uses -1 for not found), the string is flagged when
pp is at least 0, sp is greater than 0 and sp is greater than pp. -/
def stringHasUnresolvedRef (s : Bytes) : Bool :=
  match firstOcc magicPrefixB s, firstOcc magicSuffixB s with
  | some pp, some sp => decide (0 < sp) && decide (pp < sp)
  | _, _ => false

mutual
/-- FindFirstUnresolvedSecretRef from internal/secrets.go, keeping only the
found/not-found result; the accompanying path string is a diagnostic only. -/
def FindFirstUnresolvedSecretRef : Value → Bool
  | .str s => stringHasUnresolvedRef s
  | .obj fields => findUnresolvedInFields fields
  | .arr items => findUnresolvedInItems items
  | .null => false
  | .boolean _ => false
  | .num _ => false

def findUnresolvedInFields : List (String × Value) → Bool
  | [] => false
  | (_, v) :: t => FindFirstUnresolvedSecretRef v || findUnresolvedInFields t

def findUnresolvedInItems : List Value → Bool
  | [] => false
  | v :: t => FindFirstUnresolvedSecretRef v || findUnresolvedInItems t
end

/-- The string values reachable recursively through maps and lists of a value. -/
inductive ReachableStr : Value → Bytes → Prop where
  | str (s : Bytes) : ReachableStr (.str s) s
  | arr {v : Value} {s : Bytes} {items : List Value} :
      v ∈ items → ReachableStr v s → ReachableStr (.arr items) s
  | obj {v : Value} {s : Bytes} {fields : List (String × Value)} {k : String} :
      (k, v) ∈ fields → ReachableStr v s → ReachableStr (.obj fields) s

/-- The emission gate of the generate command (main_generate.go): each final
manifest is scanned with FindFirstUnresolvedSecretRef and a flagged manifest
aborts generation before anything is emitted. -/
def emitManifests : List Value → Except String (List Value)
  | [] => .ok []
  | m :: t =>
    if FindFirstUnresolvedSecretRef m then
      .error "unresolved secret ref in manifest"
    else
      match emitManifests t with
      | .error e => .error e
      | .ok rest => .ok (m :: rest)

theorem findUnresolved_reachable {v : Value} {s : Bytes}
    (hr : ReachableStr v s) (h : FindFirstUnresolvedSecretRef v = false) :
    stringHasUnresolvedRef s = false := by
  induction hr with
  | str s => exact h
  | arr hmem _ ih =>
    apply ih
    rename_i items _
    by_contra hc
    rw [Bool.not_eq_false] at hc
    have : findUnresolvedInItems items = true := by
      clear h ih
      rename_i v2 _ _
      induction items with
      | nil => simp at hmem
      | cons x t iht =>
        rcases List.mem_cons.mp hmem with h1 | h1
        · subst h1
          simp [findUnresolvedInItems, hc]
        · simp [findUnresolvedInItems, iht h1]
    simp only [FindFirstUnresolvedSecretRef] at h
    rw [this] at h
    exact Bool.true_eq_false.mp h
  | obj hmem _ ih =>
    apply ih
    rename_i fields _ _
    by_contra hc
    rw [Bool.not_eq_false] at hc
    have : findUnresolvedInFields fields = true := by
      clear h ih
      rename_i v2 _
      induction fields with
      | nil => simp at hmem
      | cons x t iht =>
        rcases List.mem_cons.mp hmem with h1 | h1
        · subst h1
          simp [findUnresolvedInFields, hc]
        · simp [findUnresolvedInFields, iht h1]
    simp only [FindFirstUnresolvedSecretRef] at h
    rw [this] at h
    exact Bool.true_eq_false.mp h

theorem emitManifests_flags {ms out : List Value} (h : emitManifests ms = .ok out) :
    out = ms ∧ ∀ m ∈ ms, FindFirstUnresolvedSecretRef m = false := by
  induction ms generalizing out with
  | nil =>
    simp only [emitManifests, Except.ok.injEq] at h
    subst h
    simp
  | cons m t ih =>
    simp only [emitManifests] at h
    split at h
    · exact absurd h (by simp)
    · rename_i hflag
      split at h
      · exact absurd h (by simp)
      · rename_i rest hrest
        simp only [Except.ok.injEq] at h
        subst h
        obtain ⟨h1, h2⟩ := ih hrest
        subst h1
        refine ⟨rfl, ?_⟩
        intro x hx
        rcases List.mem_cons.mp hx with h3 | h3
        · subst h3
          simpa using hflag
        · exact h2 x h3

/-- Claim C1 as stated fails: a manifest string consisting of the opening
sentinel alone (no closing sentinel anywhere) is not flagged by the scan, so
generate emits it and the output contains the opening sentinel. -/
theorem emitManifests_counterexample :
    emitManifests [Value.str magicPrefixB] = .ok [Value.str magicPrefixB]
    ∧ firstOcc magicPrefixB magicPrefixB = some 0
    ∧ firstOcc magicSuffixB magicPrefixB = none := by
  refine ⟨rfl, by decide, by decide⟩

/-- Amended claim C1: generation fails before emitting exactly when some
reachable string has a first closing sentinel occurring strictly after a first
opening sentinel (an intact framed reference); consequently no emitted
manifest string contains an opening sentinel followed later by a closing
sentinel, although a lone opening sentinel may still be emitted. -/
theorem emitManifests_no_framed_ref {ms out : List Value}
    (h : emitManifests ms = .ok out) :
    out = ms ∧ ∀ m ∈ out, ∀ s, ReachableStr m s →
      ¬ ∃ pp sp, firstOcc magicPrefixB s = some pp
        ∧ firstOcc magicSuffixB s = some sp ∧ pp < sp := by
  obtain ⟨h1, h2⟩ := emitManifests_flags h
  subst h1
  refine ⟨rfl, ?_⟩
  intro m hm s hr hex
  obtain ⟨pp, sp, hpp, hsp, hlt⟩ := hex
  have hflag := findUnresolved_reachable hr (h2 m hm)
  rw [stringHasUnresolvedRef, hpp, hsp] at hflag
  simp only [Bool.and_eq_false_iff, decide_eq_false_iff_not, not_lt] at hflag
  omega

/-- Witness for the amended claim C1 on a concrete manifest list. -/
theorem emitManifests_no_framed_ref_witness :
    ([Value.str [97]] : List Value) = [Value.str [97]]
    ∧ ∀ m ∈ ([Value.str [97]] : List Value), ∀ s, ReachableStr m s →
      ¬ ∃ pp sp, firstOcc magicPrefixB s = some pp
        ∧ firstOcc magicSuffixB s = some sp ∧ pp < sp :=
  @emitManifests_no_framed_ref [Value.str [97]] _ rfl

/-! Container variable conversion from internal/convert/container_variables.go. -/

/-- The 128-bit FNV-1 prime used by hash/fnv New128. -/
def fnvPrime128 : Nat := 2 ^ 88 + 2 ^ 8 + 0x3B

/-- The 128-bit FNV-1 offset basis used by hash/fnv New128. -/
def fnvOffsetBasis128 : Nat := 144066263297769815596495629667062367629

/-- FNV-1 128-bit hash of a byte sequence: for each byte, multiply by the
prime modulo 2 to the 128 and xor in the byte (hash/fnv New128 Write). -/
def fnv1_128 (data : Bytes) : Nat :=
  data.foldl (fun h b => Nat.xor (h * fnvPrime128 % 2 ^ 128) b) fnvOffsetBasis128

/-- Big-endian byte expansion of a 128-bit value (hash/fnv Sum appends the
two 64-bit words big-endian). -/
def bigEndian16 (x : Nat) : Bytes :=
  (List.range 16).map (fun j => x / 2 ^ (8 * (15 - j)) % 256)

/-- The base64url alphabet (base64.RawURLEncoding): A-Z, a-z, 0-9, dash,
underscore, returned as a byte. -/
def base64UrlChar (v : Nat) : Nat :=
  if v < 26 then 65 + v
  else if v < 52 then 97 + (v - 26)
  else if v < 62 then 48 + (v - 52)
  else if v = 62 then 45
  else 95

/-- Unpadded base64url encoding of a byte sequence (base64.RawURLEncoding). -/
def base64RawUrlEncode : Bytes → Bytes
  | b0 :: b1 :: b2 :: rest =>
    let g := b0 * 65536 + b1 * 256 + b2
    base64UrlChar (g / 262144) :: base64UrlChar (g / 4096 % 64) ::
      base64UrlChar (g / 64 % 64) :: base64UrlChar (g % 64) :: base64RawUrlEncode rest
  | [b0, b1] =>
    [base64UrlChar (b0 / 4), base64UrlChar (b0 % 4 * 16 + b1 / 16), base64UrlChar (b1 % 16 * 4)]
  | [b0] => [base64UrlChar (b0 / 4), base64UrlChar (b0 % 4 * 16)]
  | [] => []

/-- The byte remapping of strings.NewReplacer: underscore and dash become the
digit zero. -/
def replaceUnderscoreDash (b : Nat) : Nat :=
  if b = 95 ∨ b = 45 then 48 else b

/-- generateSecretRefEnvVarName from container_variables.go: the fixed
double-underscore ref marker followed by the remapped base64url encoding of
the FNV-1 128-bit hash of secretName followed by key. -/
def generateSecretRefEnvVarName (secretName key : Bytes) : Bytes :=
  strBytes "__ref_" ++
    (base64RawUrlEncode (bigEndian16 (fnv1_128 (secretName ++ key)))).map replaceUnderscoreDash

/-- Kubernetes EnvVar as used by the converter: either a literal value or a
valueFrom secretKeyRef selector. -/
structure EnvVar where
  name : Bytes
  value : Bytes
  valueFrom : Option SecretRef
deriving DecidableEq, Repr

/-- The string-builder loop of the mixed case: each part after the first is
preceded by a dollar-paren expansion of the synthetic name of the reference
consumed by that part.  The result is none when a part has no matching
reference, in which case the Go code panics with an index out of range. -/
def buildMixedTail : List Bytes → List SecretRef → Option Bytes
  | [], _ => some []
  | p :: ps, r :: rs =>
    (buildMixedTail ps rs).map (fun acc =>
      [36, 40] ++ generateSecretRefEnvVarName r.name r.key ++ [41] ++ p ++ acc)
  | _ :: _, [] => none

def buildMixedValue (parts : List Bytes) (refs : List SecretRef) : Option Bytes :=
  match parts with
  | [] => some []
  | p0 :: rest => (buildMixedTail rest refs).map (p0 ++ ·)

/-- convertContainerVariable from container_variables.go.  The substitute
argument stands for the external framework.SubstituteString applied to the
raw value with the ambient substitution function. -/
def convertContainerVariable (key value : Bytes)
    (substitute : Bytes → Except String Bytes) : Except String (List EnvVar) :=
  match substitute value with
  | .error e => .error e
  | .ok resolvedValue =>
    match DecodeSecretReferences resolvedValue with
    | .error e => .error e
    | .ok (parts, refs) =>
      match refs with
      | [] => .ok [⟨key, resolvedValue, none⟩]
      | r0 :: rrest =>
        if rrest.isEmpty ∧ parts.head? = some ([] : Bytes)
            ∧ (parts.drop 1).head? = some ([] : Bytes) then
          .ok [⟨key, [], some r0⟩]
        else
          match buildMixedValue parts (r0 :: rrest) with
          | none => .error "panic: index out of range in refs"
          | some mixed =>
            .ok ((r0 :: rrest).map
                (fun r => ⟨generateSecretRefEnvVarName r.name r.key, [], some r⟩)
              ++ [⟨key, mixed, none⟩])

/-- Byte-lexicographic order, the boolean form of strings.Compare at most 0. -/
def bytesLe : Bytes → Bytes → Bool
  | [], _ => true
  | _ :: _, [] => false
  | a :: as_, b :: bs => if a < b then true else if b < a then false else bytesLe as_ bs

/-- Generic sorted insertion for a boolean comparison. -/
def insertSortedBy {α : Type} (le : α → α → Bool) (e : α) : List α → List α
  | [] => [e]
  | x :: xs => if le e x then e :: x :: xs else x :: insertSortedBy le e xs

/-- Generic insertion sort for a boolean comparison (used to model both
slices.Sort on strings and slices.SortFunc; for the latter the comparison is
by name and the sorted lists never hold two entries with the same name, so
every comparison sort produces the same list). -/
def sortBy {α : Type} (le : α → α → Bool) : List α → List α
  | [] => []
  | x :: xs => insertSortedBy le x (sortBy le xs)

/-- Sorted insertion by name under the byte-lexicographic order. -/
def insertSorted (e : EnvVar) : List EnvVar → List EnvVar :=
  insertSortedBy (fun a b => bytesLe a.name b.name) e

/-- The final name sort of convertContainerVariables. -/
def sortEnvVars : List EnvVar → List EnvVar :=
  sortBy (fun a b => bytesLe a.name b.name)

/-- The duplicate-name filter of convertContainerVariables: an entry is added
only when no existing entry already has its name. -/
def dedupAppend (out : List EnvVar) (adds : List EnvVar) : List EnvVar :=
  adds.foldl (fun acc add =>
    if acc.any (fun e => e.name == add.name) then acc else acc ++ [add]) out

/-- convertContainerVariables from container_variables.go over a list of
key-value pairs (an iteration order of the Go map; the final sort makes the
result independent of that order up to which duplicate wins). -/
def convertContainerVariablesAux (substitute : Bytes → Except String Bytes) :
    List (Bytes × Bytes) → List EnvVar → Except String (List EnvVar)
  | [], out => .ok out
  | (k, v) :: t, out =>
    match convertContainerVariable k v substitute with
    | .error e => .error e
    | .ok adds => convertContainerVariablesAux substitute t (dedupAppend out adds)

def convertContainerVariables (vars : List (Bytes × Bytes))
    (substitute : Bytes → Except String Bytes) : Except String (List EnvVar) :=
  match convertContainerVariablesAux substitute vars [] with
  | .error e => .error e
  | .ok out => .ok (sortEnvVars out)

/-- The raw sequence of env vars produced by the per-variable conversion in
iteration order, before duplicate filtering and sorting. -/
def producedEnvVars (substitute : Bytes → Except String Bytes) :
    List (Bytes × Bytes) → Except String (List EnvVar)
  | [] => .ok []
  | (k, v) :: t =>
    match convertContainerVariable k v substitute with
    | .error e => .error e
    | .ok adds =>
      match producedEnvVars substitute t with
      | .error e => .error e
      | .ok rest => .ok (adds ++ rest)

theorem bytesLe_total : ∀ a b : Bytes, bytesLe a b = true ∨ bytesLe b a = true := by
  intro a
  induction a with
  | nil => intro b; left; rfl
  | cons x xs ih =>
    intro b
    cases b with
    | nil => right; rfl
    | cons y ys =>
      by_cases h1 : x < y
      · left; simp [bytesLe, h1]
      · by_cases h2 : y < x
        · right; simp [bytesLe, h2, h1]
        · have hxy : x = y := by omega
          subst hxy
          simpa [bytesLe, h1] using ih ys

theorem bytesLe_trans :
    ∀ a b c : Bytes, bytesLe a b = true → bytesLe b c = true → bytesLe a c = true := by
  intro a
  induction a with
  | nil => intro b c _ _; rfl
  | cons x xs ih =>
    intro b c hab hbc
    cases b with
    | nil => simp [bytesLe] at hab
    | cons y ys =>
      cases c with
      | nil => simp [bytesLe] at hbc
      | cons z zs =>
        simp only [bytesLe] at hab hbc ⊢
        rcases Nat.lt_trichotomy x y with h1 | h1 | h1
        · rcases Nat.lt_trichotomy y z with h2 | h2 | h2
          · simp [Nat.lt_trans h1 h2]
          · subst h2; simp [h1]
          · rw [if_neg (by omega), if_pos h2] at hbc
            exact absurd hbc (by simp)
        · subst h1
          rw [if_neg (lt_irrefl x), if_neg (lt_irrefl x)] at hab
          rcases Nat.lt_trichotomy x z with h2 | h2 | h2
          · simp [h2]
          · subst h2
            rw [if_neg (lt_irrefl x), if_neg (lt_irrefl x)] at hbc
            rw [if_neg (lt_irrefl x), if_neg (lt_irrefl x)]
            exact ih ys zs hab hbc
          · rw [if_neg (by omega), if_pos h2] at hbc
            exact absurd hbc (by simp)
        · rw [if_neg (by omega), if_pos h1] at hab
          exact absurd hab (by simp)

/-- Sortedness by name under the byte-lexicographic order. -/
def SortedByName (l : List EnvVar) : Prop :=
  l.Pairwise (fun a b => bytesLe a.name b.name = true)

section GenericSort

variable {α : Type} (le : α → α → Bool)

theorem insertSortedBy_perm (e : α) (l : List α) :
    (insertSortedBy le e l).Perm (e :: l) := by
  induction l with
  | nil => simp [insertSortedBy]
  | cons x xs ih =>
    simp only [insertSortedBy]
    split
    · exact List.Perm.refl _
    · exact (ih.cons x).trans (List.Perm.swap e x xs)

theorem sortBy_perm (l : List α) : (sortBy le l).Perm l := by
  induction l with
  | nil => exact List.Perm.refl _
  | cons x xs ih =>
    simp only [sortBy]
    exact (insertSortedBy_perm le x (sortBy le xs)).trans (List.Perm.cons x ih)

theorem insertSortedBy_sorted
    (htotal : ∀ a b : α, le a b = true ∨ le b a = true)
    (htrans : ∀ a b c : α, le a b = true → le b c = true → le a c = true)
    {l : List α} (e : α)
    (h : l.Pairwise (fun a b => le a b = true)) :
    (insertSortedBy le e l).Pairwise (fun a b => le a b = true) := by
  induction l with
  | nil => simp [insertSortedBy]
  | cons x xs ih =>
    simp only [insertSortedBy]
    split
    · rename_i hle
      constructor
      · intro b hb
        rcases List.mem_cons.mp hb with h1 | h1
        · subst h1; exact hle
        · have hx : le x b = true := (List.pairwise_cons.mp h).1 b h1
          exact htrans _ _ _ hle hx
      · exact h
    · rename_i hnle
      have hle : le x e = true := by
        rcases htotal e x with h1 | h1
        · exact absurd h1 hnle
        · exact h1
      obtain ⟨hx, hxs⟩ := List.pairwise_cons.mp h
      constructor
      · intro b hb
        have := (insertSortedBy_perm le e xs).mem_iff.mp hb
        rcases List.mem_cons.mp this with h1 | h1
        · subst h1; exact hle
        · exact hx b h1
      · exact ih hxs

theorem sortBy_sorted
    (htotal : ∀ a b : α, le a b = true ∨ le b a = true)
    (htrans : ∀ a b c : α, le a b = true → le b c = true → le a c = true)
    (l : List α) :
    (sortBy le l).Pairwise (fun a b => le a b = true) := by
  induction l with
  | nil => simp [sortBy]
  | cons x xs ih => exact insertSortedBy_sorted le htotal htrans x ih

end GenericSort

theorem sortEnvVars_perm (l : List EnvVar) : (sortEnvVars l).Perm l :=
  sortBy_perm _ l

theorem sortEnvVars_sorted (l : List EnvVar) : SortedByName (sortEnvVars l) := by
  unfold SortedByName sortEnvVars
  exact sortBy_sorted _ (fun a b => bytesLe_total a.name b.name)
    (fun a b c => bytesLe_trans a.name b.name c.name) l

/-- Reference function for the duplicate filter: keep each entry whose name
has not been seen yet, in order. -/
def dedupByName : List EnvVar → List Bytes → List EnvVar
  | [], _ => []
  | e :: t, seen =>
    if e.name ∈ seen then dedupByName t seen
    else e :: dedupByName t (e.name :: seen)

theorem dedupByName_congr {l : List EnvVar} :
    ∀ {s1 s2 : List Bytes}, (∀ n, n ∈ s1 ↔ n ∈ s2) → dedupByName l s1 = dedupByName l s2 := by
  induction l with
  | nil => intro s1 s2 _; rfl
  | cons e t ih =>
    intro s1 s2 hs
    simp only [dedupByName]
    by_cases h : e.name ∈ s1
    · rw [if_pos h, if_pos ((hs e.name).mp h)]
      exact ih hs
    · rw [if_neg h, if_neg (fun hc => h ((hs e.name).mpr hc))]
      congr 1
      apply ih
      intro n
      simp only [List.mem_cons]
      constructor
      · rintro (h1 | h1)
        · exact Or.inl h1
        · exact Or.inr ((hs n).mp h1)
      · rintro (h1 | h1)
        · exact Or.inl h1
        · exact Or.inr ((hs n).mpr h1)

theorem dedupAppend_eq_dedupByName (adds : List EnvVar) :
    ∀ out : List EnvVar, dedupAppend out adds = out ++ dedupByName adds (out.map EnvVar.name) := by
  induction adds with
  | nil => intro out; simp [dedupAppend, dedupByName]
  | cons a t ih =>
    intro out
    simp only [dedupAppend, List.foldl_cons, dedupByName]
    by_cases h : a.name ∈ out.map EnvVar.name
    · have hany : (out.any fun e => e.name == a.name) = true := by
        simp only [List.any_eq_true]
        obtain ⟨e, he, hn⟩ := List.mem_map.mp h
        exact ⟨e, he, by simp [hn]⟩
      rw [if_pos hany, if_pos h]
      exact ih out
    · have hany : (out.any fun e => e.name == a.name) = false := by
        simp only [List.any_eq_false]
        intro e he hc
        exact h (List.mem_map.mpr ⟨e, he, eq_of_beq hc⟩)
      rw [if_neg (by simp [hany] : ¬ (out.any fun e => e.name == a.name) = true), if_neg h]
      have := ih (out ++ [a])
      simp only [dedupAppend] at this
      rw [this]
      have hseen : ∀ n, n ∈ (out ++ [a]).map EnvVar.name ↔ n ∈ a.name :: out.map EnvVar.name := by
        intro n
        simp only [List.map_append, List.map_cons, List.map_nil, List.mem_append,
          List.mem_singleton, List.mem_cons]
        tauto
      rw [dedupByName_congr hseen]
      simp

theorem mem_of_mem_dedupByName {l : List EnvVar} :
    ∀ {seen : List Bytes} {e : EnvVar}, e ∈ dedupByName l seen →
      e ∈ l ∧ e.name ∉ seen := by
  induction l with
  | nil => intro seen e h; simp [dedupByName] at h
  | cons a t ih =>
    intro seen e h
    simp only [dedupByName] at h
    split at h
    · obtain ⟨h1, h2⟩ := ih h
      exact ⟨List.mem_cons_of_mem a h1, h2⟩
    · rename_i ha
      rcases List.mem_cons.mp h with h1 | h1
      · subst h1; exact ⟨List.mem_cons_self e t, ha⟩
      · obtain ⟨h1, h2⟩ := ih h1
        refine ⟨List.mem_cons_of_mem a h1, ?_⟩
        intro hc
        exact h2 (List.mem_cons_of_mem a.name hc)

theorem dedupByName_names_nodup (l : List EnvVar) :
    ∀ seen : List Bytes, ((dedupByName l seen).map EnvVar.name).Nodup := by
  induction l with
  | nil => intro seen; simp [dedupByName]
  | cons a t ih =>
    intro seen
    simp only [dedupByName]
    split
    · exact ih seen
    · simp only [List.map_cons, List.nodup_cons]
      refine ⟨?_, ih _⟩
      intro hc
      obtain ⟨e, he, hn⟩ := List.mem_map.mp hc
      have := (mem_of_mem_dedupByName he).2
      exact this (by simp [hn])

theorem dedupByName_find {l : List EnvVar} :
    ∀ {seen : List Bytes} {e : EnvVar}, e ∈ dedupByName l seen →
      l.find? (fun x => x.name == e.name) = some e := by
  induction l with
  | nil => intro seen e h; simp [dedupByName] at h
  | cons a t ih =>
    intro seen e h
    simp only [dedupByName] at h
    split at h
    · rename_i ha
      have hne : (a.name == e.name) = false := by
        have := (mem_of_mem_dedupByName h).2
        simp only [beq_eq_false_iff_ne, ne_eq]
        intro hc
        rw [← hc] at this
        exact this ha
      rw [List.find?_cons, hne]
      exact ih h
    · rename_i ha
      rcases List.mem_cons.mp h with h1 | h1
      · subst h1
        rw [List.find?_cons, beq_self_eq_true]
      · have hne : (a.name == e.name) = false := by
          have := (mem_of_mem_dedupByName h1).2
          simp only [beq_eq_false_iff_ne, ne_eq]
          intro hc
          exact this (by simp [hc])
        rw [List.find?_cons, hne]
        exact ih h1

theorem name_mem_dedupByName {l : List EnvVar} :
    ∀ {seen : List Bytes} {n : Bytes}, n ∈ l.map EnvVar.name → n ∉ seen →
      n ∈ (dedupByName l seen).map EnvVar.name := by
  induction l with
  | nil => intro seen n h _; simp at h
  | cons a t ih =>
    intro seen n h hn
    simp only [List.map_cons, List.mem_cons] at h
    simp only [dedupByName]
    split
    · rename_i ha
      rcases h with h1 | h1
      · subst h1; exact absurd ha hn
      · exact ih h1 hn
    · rcases h with h1 | h1
      · subst h1; simp
      · by_cases hc : n = a.name
        · subst hc; simp
        · simp only [List.map_cons, List.mem_cons]
          right
          exact ih h1 (by simp [hn, hc])

theorem mem_dedupByName_of_unique {l : List EnvVar} :
    ∀ {seen : List Bytes} {e : EnvVar}, e ∈ l →
      (∀ x ∈ l, x.name = e.name → x = e) → e.name ∉ seen →
      e ∈ dedupByName l seen := by
  induction l with
  | nil => intro seen e h _ _; simp at h
  | cons a t ih =>
    intro seen e hmem huniq hseen
    simp only [dedupByName]
    split
    · rename_i ha
      rcases List.mem_cons.mp hmem with h1 | h1
      · subst h1; exact absurd ha hseen
      · exact ih h1 (fun x hx => huniq x (List.mem_cons_of_mem a hx)) hseen
    · rename_i ha
      rcases List.mem_cons.mp hmem with h1 | h1
      · subst h1; exact List.mem_cons_self _ _
      · by_cases hc : a.name = e.name
        · have : a = e := huniq a (List.mem_cons_self a t) hc
          subst this
          exact List.mem_cons_self _ _
        · refine List.mem_cons_of_mem a ?_
          refine ih h1 (fun x hx => huniq x (List.mem_cons_of_mem a hx)) ?_
          intro hmem2
          rcases List.mem_cons.mp hmem2 with hx | hx
          · exact hc hx.symm
          · exact hseen hx

theorem dedupAppend_append (out : List EnvVar) (a b : List EnvVar) :
    dedupAppend out (a ++ b) = dedupAppend (dedupAppend out a) b := by
  simp [dedupAppend, List.foldl_append]

theorem convertContainerVariablesAux_eq_produced
    {substitute : Bytes → Except String Bytes} {vars : List (Bytes × Bytes)}
    {prod : List EnvVar} (h : producedEnvVars substitute vars = .ok prod) :
    ∀ out0 : List EnvVar,
      convertContainerVariablesAux substitute vars out0 = .ok (dedupAppend out0 prod) := by
  induction vars generalizing prod with
  | nil =>
    intro out0
    simp only [producedEnvVars, Except.ok.injEq] at h
    subst h
    rfl
  | cons kv t ih =>
    intro out0
    obtain ⟨k, v⟩ := kv
    simp only [producedEnvVars] at h
    split at h
    · exact absurd h (by simp)
    · rename_i adds hadds
      split at h
      · exact absurd h (by simp)
      · rename_i rest hrest
        simp only [Except.ok.injEq] at h
        subst h
        simp only [convertContainerVariablesAux, hadds]
        rw [ih hrest (dedupAppend out0 adds), dedupAppend_append]

/-- Claim C10: the env list returned by convertContainerVariables never holds
two entries with the same name; for each name the entry kept is the first one
produced in iteration order, and later duplicates are dropped without raising
an error. -/
theorem convertContainerVariables_dedup
    (vars : List (Bytes × Bytes)) (substitute : Bytes → Except String Bytes)
    (prod : List EnvVar) (h : producedEnvVars substitute vars = .ok prod) :
    ∃ out, convertContainerVariables vars substitute = .ok out
      ∧ (out.map EnvVar.name).Nodup
      ∧ (∀ e ∈ out, prod.find? (fun x => x.name == e.name) = some e)
      ∧ (∀ n, n ∈ prod.map EnvVar.name ↔ n ∈ out.map EnvVar.name) := by
  have haux := convertContainerVariablesAux_eq_produced h []
  have hdd : dedupAppend [] prod = dedupByName prod [] := by
    rw [dedupAppend_eq_dedupByName]
    simp
  refine ⟨sortEnvVars (dedupByName prod []), ?_, ?_, ?_, ?_⟩
  · simp only [convertContainerVariables, haux, hdd]
  · have hperm := (sortEnvVars_perm (dedupByName prod [])).map EnvVar.name
    exact hperm.nodup_iff.mpr (dedupByName_names_nodup prod [])
  · intro e he
    have := (sortEnvVars_perm (dedupByName prod [])).mem_iff.mp he
    exact dedupByName_find this
  · intro n
    have hperm := (sortEnvVars_perm (dedupByName prod [])).map EnvVar.name
    rw [hperm.mem_iff]
    constructor
    · intro hn
      exact name_mem_dedupByName hn (by simp)
    · intro hn
      obtain ⟨e, he, hname⟩ := List.mem_map.mp hn
      have := (mem_of_mem_dedupByName he).1
      exact List.mem_map.mpr ⟨e, this, hname⟩

/-- Witness for claim C10: two variables that produce the same env var name;
the first-produced entry wins, silently, and the result has unique names. -/
theorem convertContainerVariables_dedup_witness :
    ∃ out, convertContainerVariables
          [([65], [120]), ([65], [121])] (fun s => .ok s) = .ok out
      ∧ (out.map EnvVar.name).Nodup
      ∧ (∀ e ∈ out,
          [EnvVar.mk [65] [120] none, EnvVar.mk [65] [121] none].find?
            (fun x => x.name == e.name) = some e)
      ∧ (∀ n, n ∈ [EnvVar.mk [65] [120] none, EnvVar.mk [65] [121] none].map EnvVar.name
          ↔ n ∈ out.map EnvVar.name) :=
  convertContainerVariables_dedup [([65], [120]), ([65], [121])] (fun s => .ok s)
    [EnvVar.mk [65] [120] none, EnvVar.mk [65] [121] none] rfl

theorem buildMixedTail_isSome :
    ∀ (ps : List Bytes) (rs : List SecretRef), ps.length ≤ rs.length →
      ∃ b, buildMixedTail ps rs = some b := by
  intro ps
  induction ps with
  | nil => intro rs _; exact ⟨[], rfl⟩
  | cons p pt ih =>
    intro rs hlen
    cases rs with
    | nil => simp at hlen
    | cons r rt =>
      obtain ⟨b, hb⟩ := ih rt (by simpa using hlen)
      refine ⟨[36, 40] ++ generateSecretRefEnvVarName r.name r.key ++ [41] ++ p ++ b, ?_⟩
      simp [buildMixedTail, hb]

/-- Claim C3 as stated fails on sort order: for the user variable URL holding
a mixed value with one secret reference, the sorted output places URL before
the synthetic reference variable, because the underscore byte 0x5F sorts
after every uppercase letter.  The synthetic the URL value expands does not
appear before URL. -/
theorem convertContainerVariables_order_counterexample :
    ((convertContainerVariables
        [(strBytes "URL", EncodeSecretReference (strBytes "db") (strBytes "pw") ++ strBytes ":x")]
        (fun s => .ok s)).toOption.map (fun l => l.map EnvVar.name))
      = some [strBytes "URL", generateSecretRefEnvVarName (strBytes "db") (strBytes "pw")]
    ∧ strBytes "URL" ≠ generateSecretRefEnvVarName (strBytes "db") (strBytes "pw") := by
  constructor
  · decide
  · decide

/-- Amended claim C3: for a variable whose substituted value mixes secret
references with other text (and every opening sentinel is matched), the
produced env list holds exactly one synthetic variable per unique reference,
named by generateSecretRefEnvVarName and bound via valueFrom, plus the user
variable whose value replaces each reference occurrence with a dollar-paren
expansion of the synthetic name (buildMixedValue); the final list is sorted
by name with unique names — the position of the synthetics relative to the
user variable is whatever the byte order dictates, not necessarily before. -/
theorem convertContainerVariable_mixed
    (k v rv : Bytes) (substitute : Bytes → Except String Bytes)
    (parts : List Bytes) (refs : List SecretRef)
    (hsub : substitute v = .ok rv)
    (hdec : DecodeSecretReferences rv = .ok (parts, refs))
    (hne : refs ≠ [])
    (hnotwhole : ¬ (refs.length = 1 ∧ parts.head? = some ([] : Bytes)
        ∧ (parts.drop 1).head? = some ([] : Bytes)))
    (hlen : parts.length = refs.length + 1)
    (hinj : ∀ r1 ∈ refs, ∀ r2 ∈ refs,
      generateSecretRefEnvVarName r1.name r1.key = generateSecretRefEnvVarName r2.name r2.key
        → r1 = r2)
    (hk : ∀ r ∈ refs, generateSecretRefEnvVarName r.name r.key ≠ k) :
    ∃ out mixed,
      convertContainerVariables [(k, v)] substitute = .ok out
      ∧ buildMixedValue parts refs = some mixed
      ∧ SortedByName out
      ∧ (out.map EnvVar.name).Nodup
      ∧ (∀ r ∈ refs, EnvVar.mk (generateSecretRefEnvVarName r.name r.key) [] (some r) ∈ out)
      ∧ EnvVar.mk k mixed none ∈ out
      ∧ (∀ e ∈ out, e = EnvVar.mk k mixed none
          ∨ ∃ r ∈ refs, e = EnvVar.mk (generateSecretRefEnvVarName r.name r.key) [] (some r)) := by
  obtain ⟨r0, rrest, rfl⟩ : ∃ r0 rrest, refs = r0 :: rrest := by
    cases refs with
    | nil => exact absurd rfl hne
    | cons r0 rrest => exact ⟨r0, rrest, rfl⟩
  have hmixed : ∃ mixed, buildMixedValue parts (r0 :: rrest) = some mixed := by
    cases parts with
    | nil => simp at hlen
    | cons p0 rest =>
      obtain ⟨b, hb⟩ := buildMixedTail_isSome rest (r0 :: rrest) (by
        simp only [List.length_cons] at hlen ⊢
        omega)
      refine ⟨p0 ++ b, ?_⟩
      simp [buildMixedValue, hb]
  obtain ⟨mixed, hmixed⟩ := hmixed
  have hcond : ¬ (rrest.isEmpty ∧ parts.head? = some ([] : Bytes)
      ∧ (parts.drop 1).head? = some ([] : Bytes)) := by
    intro hc
    apply hnotwhole
    refine ⟨?_, hc.2.1, hc.2.2⟩
    have : rrest = [] := by simpa [List.isEmpty_iff] using hc.1
    simp [this]
  have hccv : convertContainerVariable k v substitute
      = .ok ((r0 :: rrest).map
            (fun r => EnvVar.mk (generateSecretRefEnvVarName r.name r.key) [] (some r))
          ++ [EnvVar.mk k mixed none]) := by
    simp only [convertContainerVariable, hsub, hdec, if_neg hcond, hmixed]
  set adds := (r0 :: rrest).map
      (fun r => EnvVar.mk (generateSecretRefEnvVarName r.name r.key) [] (some r))
    ++ [EnvVar.mk k mixed none] with hadds_def
  have hcvs : convertContainerVariables [(k, v)] substitute
      = .ok (sortEnvVars (dedupByName adds [])) := by
    simp only [convertContainerVariables, convertContainerVariablesAux, hccv]
    rw [show dedupAppend [] adds = dedupByName adds [] by
      rw [dedupAppend_eq_dedupByName]; simp]
  -- every entry of adds with the name of an entry of interest equals it
  have huser_unique : ∀ x ∈ adds, x.name = k → x = EnvVar.mk k mixed none := by
    intro x hx hname
    rcases List.mem_append.mp hx with hx1 | hx1
    · obtain ⟨r, hr, rfl⟩ := List.mem_map.mp hx1
      exact absurd hname (hk r hr)
    · simpa using hx1
  have hsynth_unique : ∀ r ∈ (r0 :: rrest), ∀ x ∈ adds,
      x.name = generateSecretRefEnvVarName r.name r.key →
      x = EnvVar.mk (generateSecretRefEnvVarName r.name r.key) [] (some r) := by
    intro r hr x hx hname
    rcases List.mem_append.mp hx with hx1 | hx1
    · obtain ⟨r2, hr2, rfl⟩ := List.mem_map.mp hx1
      simp only at hname
      have := hinj r2 hr2 r hr hname
      subst this
      rfl
    · have : x = EnvVar.mk k mixed none := by simpa using hx1
      subst this
      exact absurd hname.symm (hk r hr)
  refine ⟨sortEnvVars (dedupByName adds []), mixed, hcvs, hmixed,
    sortEnvVars_sorted _, ?_, ?_, ?_, ?_⟩
  · have hperm := (sortEnvVars_perm (dedupByName adds [])).map EnvVar.name
    exact hperm.nodup_iff.mpr (dedupByName_names_nodup adds [])
  · intro r hr
    apply (sortEnvVars_perm (dedupByName adds [])).mem_iff.mpr
    apply mem_dedupByName_of_unique
    · exact List.mem_append.mpr (Or.inl (List.mem_map.mpr ⟨r, hr, rfl⟩))
    · exact hsynth_unique r hr
    · simp
  · apply (sortEnvVars_perm (dedupByName adds [])).mem_iff.mpr
    apply mem_dedupByName_of_unique
    · exact List.mem_append.mpr (Or.inr (by simp))
    · exact huser_unique
    · simp
  · intro e he
    have := (sortEnvVars_perm (dedupByName adds [])).mem_iff.mp he
    have hmem := (mem_of_mem_dedupByName this).1
    rcases List.mem_append.mp hmem with h1 | h1
    · obtain ⟨r, hr, rfl⟩ := List.mem_map.mp h1
      exact Or.inr ⟨r, hr, rfl⟩
    · exact Or.inl (by simpa using h1)

/-- Witness for the amended claim C3 at the concrete URL example. -/
theorem convertContainerVariable_mixed_witness :
    ∃ out mixed,
      convertContainerVariables
          [(strBytes "URL",
            EncodeSecretReference (strBytes "db") (strBytes "pw") ++ strBytes ":x")]
          (fun s => .ok s) = .ok out
      ∧ buildMixedValue [[], strBytes ":x"] [⟨strBytes "db", strBytes "pw"⟩] = some mixed
      ∧ SortedByName out
      ∧ (out.map EnvVar.name).Nodup
      ∧ (∀ r ∈ [SecretRef.mk (strBytes "db") (strBytes "pw")],
          EnvVar.mk (generateSecretRefEnvVarName r.name r.key) [] (some r) ∈ out)
      ∧ EnvVar.mk (strBytes "URL") mixed none ∈ out
      ∧ (∀ e ∈ out, e = EnvVar.mk (strBytes "URL") mixed none
          ∨ ∃ r ∈ [SecretRef.mk (strBytes "db") (strBytes "pw")],
              e = EnvVar.mk (generateSecretRefEnvVarName r.name r.key) [] (some r)) := by
  apply convertContainerVariable_mixed _ _
    (EncodeSecretReference (strBytes "db") (strBytes "pw") ++ strBytes ":x")
  · rfl
  · rfl
  · decide
  · decide
  · decide
  · decide
  · decide

/-! Projected-volume collapsing from internal/convert/container_volumes.go. -/

/-- KeyToPath item of a ConfigMap or Secret volume source. -/
structure KeyToPath where
  key : Bytes
  path : Bytes
  mode : Option Int
deriving DecidableEq, Repr

/-- A single source of a projected volume: either a ConfigMapProjection or a
SecretProjection, both carrying a local object name and the items. -/
inductive VolumeProjection where
  | configMap (name : Bytes) (items : List KeyToPath)
  | secret (name : Bytes) (items : List KeyToPath)
deriving DecidableEq, Repr

/-- The volume sources relevant to collapsing: ConfigMap-backed,
Secret-backed, projected, or any other Kubernetes volume source, which the
collapsing never inspects and is kept opaque. -/
inductive VolumeSource where
  | configMap (name : Bytes) (items : List KeyToPath)
  | secret (secretName : Bytes) (items : List KeyToPath)
  | projected (sources : List VolumeProjection)
  | other (tag : Bytes)
deriving DecidableEq, Repr

structure Volume where
  name : Bytes
  source : VolumeSource
deriving DecidableEq, Repr

structure VolumeMount where
  name : Bytes
  mountPath : Bytes
  subPath : Bytes
  readOnly : Bool
deriving DecidableEq, Repr

/-- Whether the volume is ConfigMap- or Secret-backed (vol.ConfigMap != nil
or vol.Secret != nil). -/
def isCMorSecret (v : Volume) : Bool :=
  match v.source with
  | .configMap _ _ => true
  | .secret _ _ => true
  | _ => false

/-- The VolumeProjection built from a grouped volume; volumes that are
neither ConfigMap nor Secret never enter a group. -/
def projectionOf (v : Volume) : Option VolumeProjection :=
  match v.source with
  | .configMap n items => some (.configMap n items)
  | .secret n items => some (.secret n items)
  | _ => none

/-- Append an entry to the group of a mount path, preserving the other
groups; a Go map keyed by mount path with per-key appends. -/
def groupsAppend (groups : List (Bytes × List (Volume × VolumeMount)))
    (path : Bytes) (vm : Volume × VolumeMount) :
    List (Bytes × List (Volume × VolumeMount)) :=
  match groups with
  | [] => [(path, [vm])]
  | (p, l) :: t =>
    if p = path then (p, l ++ [vm]) :: t else (p, l) :: groupsAppend t path vm

def lookupGroup (groups : List (Bytes × List (Volume × VolumeMount)))
    (path : Bytes) : List (Volume × VolumeMount) :=
  match groups with
  | [] => []
  | (p, l) :: t => if p = path then l else lookupGroup t path

/-- The accumulated state of the first phase of collapseVolumeMounts. -/
structure Phase1State where
  outMounts : List VolumeMount
  outVols : List Volume
  groups : List (Bytes × List (Volume × VolumeMount))

/-- One iteration of the first phase: look up the mount's volume by name
(first index), group ConfigMap/Secret volumes by mount path, pass everything
else through. -/
def phase1Step (volumes : List Volume) (st : Phase1State) (mount : VolumeMount) :
    Phase1State :=
  match volumes.find? (fun v => v.name == mount.name) with
  | some vol =>
    if isCMorSecret vol then
      { st with groups := groupsAppend st.groups mount.mountPath (vol, mount) }
    else
      { st with outMounts := st.outMounts ++ [mount], outVols := st.outVols ++ [vol] }
  | none => { st with outMounts := st.outMounts ++ [mount] }

def phase1 (volumes : List Volume) (mounts : List VolumeMount) : Phase1State :=
  mounts.foldl (phase1Step volumes) ⟨[], [], []⟩

/-- proj-vol-<i> as bytes. -/
def projVolName (i : Nat) : Bytes := strBytes "proj-vol-" ++ strBytes (toString i)

/-- The second phase of collapseVolumeMounts: walk the grouped mount paths in
sorted order; a singleton group passes through unchanged, any other group
becomes one projected volume named proj-vol-<i> with a read-only mount, where
i counts the collapsed groups emitted so far. -/
def renderGroups (groups : List (Bytes × List (Volume × VolumeMount))) :
    List Bytes → Nat → List Volume × List VolumeMount
  | [], _ => ([], [])
  | path :: rest, idx =>
    match lookupGroup groups path with
    | [vm] =>
      (vm.1 :: (renderGroups groups rest idx).1, vm.2 :: (renderGroups groups rest idx).2)
    | g =>
      (Volume.mk (projVolName idx) (.projected (g.filterMap (fun vm => projectionOf vm.1)))
          :: (renderGroups groups rest (idx + 1)).1,
        VolumeMount.mk (projVolName idx) path [] true
          :: (renderGroups groups rest (idx + 1)).2)

/-- collapseVolumeMounts from container_volumes.go.  The Go function also
returns an error which is always nil. -/
def collapseVolumeMounts (volumes : List Volume) (mounts : List VolumeMount) :
    List Volume × List VolumeMount :=
  let st := phase1 volumes mounts
  let orderedMountPaths := sortBy bytesLe (st.groups.map Prod.fst)
  let (gv, gm) := renderGroups st.groups orderedMountPaths 0
  (st.outVols ++ gv, st.outMounts ++ gm)

/-- The reference description of the grouped entries at one mount path: the
ConfigMap- or Secret-backed (volume, mount) pairs whose mount path equals p,
in mount order. -/
def groupOf (volumes : List Volume) (mounts : List VolumeMount) (p : Bytes) :
    List (Volume × VolumeMount) :=
  mounts.filterMap (fun m =>
    match volumes.find? (fun v => v.name == m.name) with
    | some vol => if isCMorSecret vol && m.mountPath == p then some (vol, m) else none
    | none => none)

/-- The mounts passed through unchanged by the first phase: mounts with no
matching volume, or whose volume is neither ConfigMap nor Secret. -/
def passMounts (volumes : List Volume) (mounts : List VolumeMount) : List VolumeMount :=
  mounts.filter (fun m =>
    match volumes.find? (fun v => v.name == m.name) with
    | some vol => !isCMorSecret vol
    | none => true)

/-- The volumes passed through unchanged by the first phase. -/
def passVols (volumes : List Volume) (mounts : List VolumeMount) : List Volume :=
  mounts.filterMap (fun m =>
    match volumes.find? (fun v => v.name == m.name) with
    | some vol => if isCMorSecret vol then none else some vol
    | none => none)

theorem lookupGroup_groupsAppend (g : List (Bytes × List (Volume × VolumeMount)))
    (q : Bytes) (vm : Volume × VolumeMount) (p : Bytes) :
    lookupGroup (groupsAppend g q vm) p =
      if q = p then lookupGroup g p ++ [vm] else lookupGroup g p := by
  induction g with
  | nil =>
    simp only [groupsAppend, lookupGroup]
    by_cases h : q = p
    · subst h; simp
    · simp [h]
  | cons a t ih =>
    obtain ⟨ap, al⟩ := a
    simp only [groupsAppend]
    by_cases h1 : ap = q
    · subst h1
      simp only [if_pos rfl, lookupGroup]
      by_cases h2 : ap = p
      · subst h2; simp
      · simp [h2]
    · rw [if_neg h1]
      simp only [lookupGroup]
      by_cases h2 : ap = p
      · subst h2
        rw [if_pos rfl, if_pos rfl]
        have : ¬ q = ap := fun hc => h1 hc.symm
        rw [if_neg this]
      · rw [if_neg h2, if_neg h2, ih]

theorem phase1_groups_lookup (volumes : List Volume) (mounts : List VolumeMount) :
    ∀ (st0 : Phase1State) (p : Bytes),
      lookupGroup ((mounts.foldl (phase1Step volumes) st0).groups) p =
        lookupGroup st0.groups p ++ groupOf volumes mounts p := by
  induction mounts with
  | nil => intro st0 p; simp [groupOf]
  | cons m t ih =>
    intro st0 p
    simp only [List.foldl_cons, groupOf, List.filterMap_cons]
    match hfind : volumes.find? (fun v => v.name == m.name) with
    | none =>
      have hstep : phase1Step volumes st0 m = { st0 with outMounts := st0.outMounts ++ [m] } := by
        simp [phase1Step, hfind]
      rw [hstep, ih]
      simp [groupOf, hfind]
    | some vol =>
      by_cases hcm : isCMorSecret vol = true
      · have hstep : phase1Step volumes st0 m =
            { st0 with groups := groupsAppend st0.groups m.mountPath (vol, m) } := by
          simp [phase1Step, hfind, hcm]
        rw [hstep, ih]
        simp only [lookupGroup_groupsAppend]
        by_cases hp : m.mountPath = p
        · subst hp
          simp [groupOf, hcm, hfind]
        · simp [groupOf, hp, hfind]
      · have hstep : phase1Step volumes st0 m =
            { st0 with outMounts := st0.outMounts ++ [m], outVols := st0.outVols ++ [vol] } := by
          simp [phase1Step, hfind, hcm]
        rw [hstep, ih]
        have : isCMorSecret vol = false := by simpa using hcm
        simp [groupOf, this, hfind]

theorem phase1_outMounts (volumes : List Volume) (mounts : List VolumeMount) :
    ∀ st0 : Phase1State,
      (mounts.foldl (phase1Step volumes) st0).outMounts =
        st0.outMounts ++ passMounts volumes mounts := by
  induction mounts with
  | nil => intro st0; simp [passMounts]
  | cons m t ih =>
    intro st0
    simp only [List.foldl_cons, passMounts, List.filter_cons]
    match hfind : volumes.find? (fun v => v.name == m.name) with
    | none =>
      have hstep : phase1Step volumes st0 m = { st0 with outMounts := st0.outMounts ++ [m] } := by
        simp [phase1Step, hfind]
      rw [hstep, ih]
      simp [passMounts, hfind]
    | some vol =>
      by_cases hcm : isCMorSecret vol = true
      · have hstep : phase1Step volumes st0 m =
            { st0 with groups := groupsAppend st0.groups m.mountPath (vol, m) } := by
          simp [phase1Step, hfind, hcm]
        rw [hstep, ih]
        simp [passMounts, hcm, hfind]
      · have hstep : phase1Step volumes st0 m =
            { st0 with outMounts := st0.outMounts ++ [m], outVols := st0.outVols ++ [vol] } := by
          simp [phase1Step, hfind, hcm]
        rw [hstep, ih]
        have : isCMorSecret vol = false := by simpa using hcm
        simp [passMounts, this, hfind]

theorem phase1_outVols (volumes : List Volume) (mounts : List VolumeMount) :
    ∀ st0 : Phase1State,
      (mounts.foldl (phase1Step volumes) st0).outVols =
        st0.outVols ++ passVols volumes mounts := by
  induction mounts with
  | nil => intro st0; simp [passVols]
  | cons m t ih =>
    intro st0
    simp only [List.foldl_cons, passVols, List.filterMap_cons]
    match hfind : volumes.find? (fun v => v.name == m.name) with
    | none =>
      have hstep : phase1Step volumes st0 m = { st0 with outMounts := st0.outMounts ++ [m] } := by
        simp [phase1Step, hfind]
      rw [hstep, ih]
      simp [passVols, hfind]
    | some vol =>
      by_cases hcm : isCMorSecret vol = true
      · have hstep : phase1Step volumes st0 m =
            { st0 with groups := groupsAppend st0.groups m.mountPath (vol, m) } := by
          simp [phase1Step, hfind, hcm]
        rw [hstep, ih]
        simp [passVols, hcm, hfind]
      · have hstep : phase1Step volumes st0 m =
            { st0 with outMounts := st0.outMounts ++ [m], outVols := st0.outVols ++ [vol] } := by
          simp [phase1Step, hfind, hcm]
        rw [hstep, ih]
        have : isCMorSecret vol = false := by simpa using hcm
        simp [passVols, this, hfind]

theorem renderGroups_cons_single {g : List (Bytes × List (Volume × VolumeMount))}
    {path : Bytes} {rest : List Bytes} {idx : Nat} {vm : Volume × VolumeMount}
    (h : lookupGroup g path = [vm]) :
    renderGroups g (path :: rest) idx =
      (vm.1 :: (renderGroups g rest idx).1, vm.2 :: (renderGroups g rest idx).2) := by
  simp only [renderGroups, h]

theorem renderGroups_cons_multi {g : List (Bytes × List (Volume × VolumeMount))}
    {path : Bytes} {rest : List Bytes} {idx : Nat}
    (h : ∀ vm, lookupGroup g path ≠ [vm]) :
    renderGroups g (path :: rest) idx =
      (Volume.mk (projVolName idx)
          (.projected ((lookupGroup g path).filterMap (fun vm => projectionOf vm.1)))
          :: (renderGroups g rest (idx + 1)).1,
        VolumeMount.mk (projVolName idx) path [] true
          :: (renderGroups g rest (idx + 1)).2) := by
  match hl : lookupGroup g path with
  | [] => simp only [renderGroups, hl]
  | [vm] => exact absurd hl (h vm)
  | a :: b :: t => simp only [renderGroups, hl]

theorem renderGroups_lengths (g : List (Bytes × List (Volume × VolumeMount))) :
    ∀ (paths : List Bytes) (idx : Nat),
      (renderGroups g paths idx).1.length = paths.length
      ∧ (renderGroups g paths idx).2.length = paths.length := by
  intro paths
  induction paths with
  | nil => intro idx; simp [renderGroups]
  | cons path rest ih =>
    intro idx
    match hl : lookupGroup g path with
    | [vm] =>
      rw [renderGroups_cons_single hl]
      simp [ih idx]
    | [] =>
      rw [renderGroups_cons_multi (by simp [hl])]
      simp [ih (idx + 1)]
    | a :: b :: t =>
      rw [renderGroups_cons_multi (by simp [hl])]
      simp [ih (idx + 1)]

theorem renderGroups_mountPaths {g : List (Bytes × List (Volume × VolumeMount))}
    {paths : List Bytes}
    (hpm : ∀ q ∈ paths, ∀ vm ∈ lookupGroup g q, vm.2.mountPath = q) :
    ∀ idx, ∀ mo ∈ (renderGroups g paths idx).2, mo.mountPath ∈ paths := by
  induction paths with
  | nil => intro idx mo hmo; simp [renderGroups] at hmo
  | cons path rest ih =>
    intro idx mo hmo
    have hrest : ∀ q ∈ rest, ∀ vm ∈ lookupGroup g q, vm.2.mountPath = q :=
      fun q hq => hpm q (List.mem_cons_of_mem path hq)
    match hl : lookupGroup g path with
    | [vm] =>
      rw [renderGroups_cons_single hl] at hmo
      rcases List.mem_cons.mp hmo with h1 | h1
      · subst h1
        have := hpm path (List.mem_cons_self _ _) vm (by simp [hl])
        simp [this]
      · exact List.mem_cons_of_mem path (ih hrest idx mo h1)
    | [] =>
      rw [renderGroups_cons_multi (by simp [hl])] at hmo
      rcases List.mem_cons.mp hmo with h1 | h1
      · subst h1; simp
      · exact List.mem_cons_of_mem path (ih hrest (idx + 1) mo h1)
    | a :: b :: t =>
      rw [renderGroups_cons_multi (by simp [hl])] at hmo
      rcases List.mem_cons.mp hmo with h1 | h1
      · subst h1; simp
      · exact List.mem_cons_of_mem path (ih hrest (idx + 1) mo h1)

theorem renderGroups_covers {g : List (Bytes × List (Volume × VolumeMount))}
    {paths : List Bytes}
    (hpm : ∀ q ∈ paths, ∀ vm ∈ lookupGroup g q, vm.2.mountPath = q) :
    ∀ idx, ∀ q ∈ paths, ∃ mo ∈ (renderGroups g paths idx).2, mo.mountPath = q := by
  induction paths with
  | nil => intro idx q hq; simp at hq
  | cons path rest ih =>
    intro idx q hq
    have hrest : ∀ r ∈ rest, ∀ vm ∈ lookupGroup g r, vm.2.mountPath = r :=
      fun r hr => hpm r (List.mem_cons_of_mem path hr)
    rcases List.mem_cons.mp hq with h1 | h1
    · subst h1
      match hl : lookupGroup g q with
      | [vm] =>
        rw [renderGroups_cons_single hl]
        exact ⟨vm.2, by simp, hpm q (List.mem_cons_self _ _) vm (by simp [hl])⟩
      | [] =>
        rw [renderGroups_cons_multi (by simp [hl])]
        exact ⟨VolumeMount.mk (projVolName idx) q [] true, by simp, rfl⟩
      | a :: b :: t =>
        rw [renderGroups_cons_multi (by simp [hl])]
        exact ⟨VolumeMount.mk (projVolName idx) q [] true, by simp, rfl⟩
    · match hl : lookupGroup g path with
      | [vm] =>
        rw [renderGroups_cons_single hl]
        obtain ⟨mo, hmo, hpath⟩ := ih hrest idx q h1
        exact ⟨mo, List.mem_cons_of_mem _ hmo, hpath⟩
      | [] =>
        rw [renderGroups_cons_multi (by simp [hl])]
        obtain ⟨mo, hmo, hpath⟩ := ih hrest (idx + 1) q h1
        exact ⟨mo, List.mem_cons_of_mem _ hmo, hpath⟩
      | a :: b :: t =>
        rw [renderGroups_cons_multi (by simp [hl])]
        obtain ⟨mo, hmo, hpath⟩ := ih hrest (idx + 1) q h1
        exact ⟨mo, List.mem_cons_of_mem _ hmo, hpath⟩

theorem renderGroups_single_mem {g : List (Bytes × List (Volume × VolumeMount))}
    {paths : List Bytes} {q : Bytes} {vm : Volume × VolumeMount}
    (hq : q ∈ paths) (hl : lookupGroup g q = [vm]) :
    ∀ idx, vm.1 ∈ (renderGroups g paths idx).1 ∧ vm.2 ∈ (renderGroups g paths idx).2 := by
  induction paths with
  | nil => simp at hq
  | cons path rest ih =>
    intro idx
    by_cases hpq : path = q
    · subst hpq
      rw [renderGroups_cons_single hl]
      simp
    · have h1 : q ∈ rest := by
        rcases List.mem_cons.mp hq with h2 | h2
        · exact absurd h2.symm hpq
        · exact h2
      match hlp : lookupGroup g path with
      | [vm2] =>
        rw [renderGroups_cons_single hlp]
        obtain ⟨hv, hm⟩ := ih h1 idx
        exact ⟨List.mem_cons_of_mem _ hv, List.mem_cons_of_mem _ hm⟩
      | [] =>
        rw [renderGroups_cons_multi (by simp [hlp])]
        obtain ⟨hv, hm⟩ := ih h1 (idx + 1)
        exact ⟨List.mem_cons_of_mem _ hv, List.mem_cons_of_mem _ hm⟩
      | a :: b :: t =>
        rw [renderGroups_cons_multi (by simp [hlp])]
        obtain ⟨hv, hm⟩ := ih h1 (idx + 1)
        exact ⟨List.mem_cons_of_mem _ hv, List.mem_cons_of_mem _ hm⟩

theorem renderGroups_multi_mem {g : List (Bytes × List (Volume × VolumeMount))}
    {paths : List Bytes} {q : Bytes}
    (hq : q ∈ paths) (hmulti : ∀ vm, lookupGroup g q ≠ [vm]) :
    ∀ idx,
      Volume.mk
          (projVolName (idx + ((paths.takeWhile (fun r => !(r == q))).filter
            (fun r => !((lookupGroup g r).length == 1))).length))
          (.projected ((lookupGroup g q).filterMap (fun vm => projectionOf vm.1)))
        ∈ (renderGroups g paths idx).1
      ∧ VolumeMount.mk
          (projVolName (idx + ((paths.takeWhile (fun r => !(r == q))).filter
            (fun r => !((lookupGroup g r).length == 1))).length))
          q [] true
        ∈ (renderGroups g paths idx).2 := by
  induction paths with
  | nil => simp at hq
  | cons path rest ih =>
    intro idx
    by_cases hpq : path = q
    · subst hpq
      have htake : (path :: rest).takeWhile (fun r => !(r == path)) = [] := by
        simp [List.takeWhile_cons]
      rw [htake]
      rw [renderGroups_cons_multi hmulti]
      simp
    · have h1 : q ∈ rest := by
        rcases List.mem_cons.mp hq with h2 | h2
        · exact absurd h2.symm hpq
        · exact h2
      have htake : (path :: rest).takeWhile (fun r => !(r == q))
          = path :: rest.takeWhile (fun r => !(r == q)) := by
        simp [List.takeWhile_cons, hpq]
      rw [htake]
      match hlp : lookupGroup g path with
      | [vm2] =>
        have hfil : ((path :: rest.takeWhile (fun r => !(r == q))).filter
            (fun r => !((lookupGroup g r).length == 1)))
            = (rest.takeWhile (fun r => !(r == q))).filter
              (fun r => !((lookupGroup g r).length == 1)) := by
          simp [List.filter_cons, hlp]
        rw [hfil, renderGroups_cons_single hlp]
        obtain ⟨hv, hm⟩ := ih h1 idx
        exact ⟨List.mem_cons_of_mem _ hv, List.mem_cons_of_mem _ hm⟩
      | [] =>
        have hfil : ((path :: rest.takeWhile (fun r => !(r == q))).filter
            (fun r => !((lookupGroup g r).length == 1)))
            = path :: (rest.takeWhile (fun r => !(r == q))).filter
              (fun r => !((lookupGroup g r).length == 1)) := by
          simp [List.filter_cons, hlp]
        rw [hfil, renderGroups_cons_multi (by simp [hlp])]
        obtain ⟨hv, hm⟩ := ih h1 (idx + 1)
        constructor
        · refine List.mem_cons_of_mem _ ?_
          have harith : idx + (path :: (rest.takeWhile (fun r => !(r == q))).filter
              (fun r => !((lookupGroup g r).length == 1))).length
              = (idx + 1) + ((rest.takeWhile (fun r => !(r == q))).filter
                (fun r => !((lookupGroup g r).length == 1))).length := by
            simp only [List.length_cons]
            omega
          rw [harith]
          exact hv
        · refine List.mem_cons_of_mem _ ?_
          have harith : idx + (path :: (rest.takeWhile (fun r => !(r == q))).filter
              (fun r => !((lookupGroup g r).length == 1))).length
              = (idx + 1) + ((rest.takeWhile (fun r => !(r == q))).filter
                (fun r => !((lookupGroup g r).length == 1))).length := by
            simp only [List.length_cons]
            omega
          rw [harith]
          exact hm
      | a :: b :: t =>
        have hfil : ((path :: rest.takeWhile (fun r => !(r == q))).filter
            (fun r => !((lookupGroup g r).length == 1)))
            = path :: (rest.takeWhile (fun r => !(r == q))).filter
              (fun r => !((lookupGroup g r).length == 1)) := by
          simp [List.filter_cons, hlp]
        rw [hfil, renderGroups_cons_multi (by simp [hlp])]
        obtain ⟨hv, hm⟩ := ih h1 (idx + 1)
        constructor
        · refine List.mem_cons_of_mem _ ?_
          have harith : idx + (path :: (rest.takeWhile (fun r => !(r == q))).filter
              (fun r => !((lookupGroup g r).length == 1))).length
              = (idx + 1) + ((rest.takeWhile (fun r => !(r == q))).filter
                (fun r => !((lookupGroup g r).length == 1))).length := by
            simp only [List.length_cons]
            omega
          rw [harith]
          exact hv
        · refine List.mem_cons_of_mem _ ?_
          have harith : idx + (path :: (rest.takeWhile (fun r => !(r == q))).filter
              (fun r => !((lookupGroup g r).length == 1))).length
              = (idx + 1) + ((rest.takeWhile (fun r => !(r == q))).filter
                (fun r => !((lookupGroup g r).length == 1))).length := by
            simp only [List.length_cons]
            omega
          rw [harith]
          exact hm

theorem groupOf_mountPath {volumes : List Volume} {mounts : List VolumeMount} {p : Bytes}
    {vm : Volume × VolumeMount} (h : vm ∈ groupOf volumes mounts p) :
    vm.2.mountPath = p ∧ vm.2 ∈ mounts := by
  obtain ⟨m, hm, heq⟩ := List.mem_filterMap.mp h
  match hfind : volumes.find? (fun v => v.name == m.name) with
  | none => rw [hfind] at heq; simp at heq
  | some vol =>
    rw [hfind] at heq
    have heq2 : (if isCMorSecret vol && m.mountPath == p then some (vol, m) else none)
        = some vm := heq
    split at heq2
    · rename_i hcond
      obtain rfl := Option.some.inj heq2
      have hand := (Bool.and_eq_true _ _).mp hcond
      exact ⟨by simpa using hand.2, hm⟩
    · simp at heq2

theorem mem_groupOf {volumes : List Volume} {mounts : List VolumeMount}
    {m : VolumeMount} {vol : Volume}
    (hm : m ∈ mounts) (hfind : volumes.find? (fun v => v.name == m.name) = some vol)
    (hcm : isCMorSecret vol = true) :
    (vol, m) ∈ groupOf volumes mounts m.mountPath := by
  apply List.mem_filterMap.mpr
  refine ⟨m, hm, ?_⟩
  rw [hfind]
  simp [hcm]

theorem lookupGroup_mem_keys {g : List (Bytes × List (Volume × VolumeMount))}
    (hne : ∀ e ∈ g, e.2 ≠ []) (p : Bytes) :
    p ∈ g.map Prod.fst ↔ lookupGroup g p ≠ [] := by
  induction g with
  | nil => simp [lookupGroup]
  | cons a t ih =>
    obtain ⟨ap, al⟩ := a
    simp only [List.map_cons, List.mem_cons, lookupGroup]
    by_cases h : ap = p
    · subst h
      simp only [if_pos rfl]
      constructor
      · intro _; exact hne (ap, al) (List.mem_cons_self _ _)
      · intro _; simp
    · rw [if_neg h]
      have ht : ∀ e ∈ t, e.2 ≠ [] := fun e he => hne e (List.mem_cons_of_mem _ he)
      rw [← ih ht]
      constructor
      · rintro (h1 | h1)
        · exact absurd h1.symm h
        · exact h1
      · intro h1; exact Or.inr h1

theorem groupsAppend_values_ne {g : List (Bytes × List (Volume × VolumeMount))}
    {q : Bytes} {vm : Volume × VolumeMount}
    (hne : ∀ e ∈ g, e.2 ≠ []) :
    ∀ e ∈ groupsAppend g q vm, e.2 ≠ [] := by
  induction g with
  | nil =>
    intro e he
    simp only [groupsAppend, List.mem_singleton] at he
    subst he
    simp
  | cons a t ih =>
    obtain ⟨ap, al⟩ := a
    intro e he
    simp only [groupsAppend] at he
    split at he
    · rcases List.mem_cons.mp he with h1 | h1
      · subst h1; simp
      · exact hne e (List.mem_cons_of_mem _ h1)
    · rcases List.mem_cons.mp he with h1 | h1
      · subst h1; exact hne (ap, al) (List.mem_cons_self _ _)
      · exact ih (fun x hx => hne x (List.mem_cons_of_mem _ hx)) e h1

theorem phase1_values_ne (volumes : List Volume) (mounts : List VolumeMount) :
    ∀ st0 : Phase1State, (∀ e ∈ st0.groups, e.2 ≠ []) →
      ∀ e ∈ (mounts.foldl (phase1Step volumes) st0).groups, e.2 ≠ [] := by
  induction mounts with
  | nil => intro st0 h; simpa using h
  | cons m t ih =>
    intro st0 h
    simp only [List.foldl_cons]
    apply ih
    match hfind : volumes.find? (fun v => v.name == m.name) with
    | none =>
      have hstep : phase1Step volumes st0 m = { st0 with outMounts := st0.outMounts ++ [m] } := by
        simp [phase1Step, hfind]
      rw [hstep]
      exact h
    | some vol =>
      by_cases hcm : isCMorSecret vol = true
      · have hstep : phase1Step volumes st0 m =
            { st0 with groups := groupsAppend st0.groups m.mountPath (vol, m) } := by
          simp [phase1Step, hfind, hcm]
        rw [hstep]
        exact groupsAppend_values_ne h
      · have hstep : phase1Step volumes st0 m =
            { st0 with outMounts := st0.outMounts ++ [m], outVols := st0.outVols ++ [vol] } := by
          simp [phase1Step, hfind, hcm]
        rw [hstep]
        exact h

theorem groupsAppend_keys (g : List (Bytes × List (Volume × VolumeMount)))
    (q : Bytes) (vm : Volume × VolumeMount) :
    (groupsAppend g q vm).map Prod.fst =
      if q ∈ g.map Prod.fst then g.map Prod.fst else g.map Prod.fst ++ [q] := by
  induction g with
  | nil => simp [groupsAppend]
  | cons a t ih =>
    obtain ⟨ap, al⟩ := a
    simp only [groupsAppend, List.map_cons, List.mem_cons]
    by_cases h1 : ap = q
    · subst h1
      simp
    · rw [if_neg h1]
      simp only [List.map_cons, ih]
      by_cases h2 : q ∈ t.map Prod.fst
      · rw [if_pos h2, if_pos (Or.inr h2)]
      · rw [if_neg h2, if_neg (by
          rintro (h3 | h3)
          · exact h1 h3.symm
          · exact h2 h3)]
        simp

theorem phase1_keys_nodup (volumes : List Volume) (mounts : List VolumeMount) :
    ∀ st0 : Phase1State, (st0.groups.map Prod.fst).Nodup →
      ((mounts.foldl (phase1Step volumes) st0).groups.map Prod.fst).Nodup := by
  induction mounts with
  | nil => intro st0 h; simpa using h
  | cons m t ih =>
    intro st0 h
    simp only [List.foldl_cons]
    apply ih
    match hfind : volumes.find? (fun v => v.name == m.name) with
    | none =>
      have hstep : phase1Step volumes st0 m = { st0 with outMounts := st0.outMounts ++ [m] } := by
        simp [phase1Step, hfind]
      rw [hstep]
      exact h
    | some vol =>
      by_cases hcm : isCMorSecret vol = true
      · have hstep : phase1Step volumes st0 m =
            { st0 with groups := groupsAppend st0.groups m.mountPath (vol, m) } := by
          simp [phase1Step, hfind, hcm]
        rw [hstep]
        show ((groupsAppend st0.groups m.mountPath (vol, m)).map Prod.fst).Nodup
        rw [groupsAppend_keys]
        split
        · exact h
        · rename_i hnotmem
          rw [List.nodup_append]
          refine ⟨h, List.nodup_singleton _, ?_⟩
          intro x hx hx2
          simp only [List.mem_singleton] at hx2
          subst hx2
          exact hnotmem hx
      · have hstep : phase1Step volumes st0 m =
            { st0 with outMounts := st0.outMounts ++ [m], outVols := st0.outVols ++ [vol] } := by
          simp [phase1Step, hfind, hcm]
        rw [hstep]
        exact h

/-- The number of mounts whose name matches some volume. -/
def matchedCount (volumes : List Volume) (mounts : List VolumeMount) : Nat :=
  (mounts.filter (fun m => (volumes.find? (fun v => v.name == m.name)).isSome)).length

def sumGroups (g : List (Bytes × List (Volume × VolumeMount))) : Nat :=
  (g.map (fun e => e.2.length)).sum

theorem groupsAppend_sum (g : List (Bytes × List (Volume × VolumeMount)))
    (q : Bytes) (vm : Volume × VolumeMount) :
    sumGroups (groupsAppend g q vm) = sumGroups g + 1 := by
  induction g with
  | nil => simp [groupsAppend, sumGroups]
  | cons a t ih =>
    obtain ⟨ap, al⟩ := a
    simp only [groupsAppend]
    split
    · simp [sumGroups]
      omega
    · simp only [sumGroups, List.map_cons, List.sum_cons] at ih ⊢
      omega

theorem phase1_count (volumes : List Volume) (mounts : List VolumeMount) :
    ∀ st0 : Phase1State,
      (mounts.foldl (phase1Step volumes) st0).outVols.length
        + sumGroups ((mounts.foldl (phase1Step volumes) st0).groups)
      = st0.outVols.length + sumGroups st0.groups + matchedCount volumes mounts := by
  induction mounts with
  | nil => intro st0; simp [matchedCount]
  | cons m t ih =>
    intro st0
    simp only [List.foldl_cons]
    rw [ih]
    match hfind : volumes.find? (fun v => v.name == m.name) with
    | none =>
      have hstep : phase1Step volumes st0 m = { st0 with outMounts := st0.outMounts ++ [m] } := by
        simp [phase1Step, hfind]
      rw [hstep]
      simp [matchedCount, List.filter_cons, hfind]
    | some vol =>
      by_cases hcm : isCMorSecret vol = true
      · have hstep : phase1Step volumes st0 m =
            { st0 with groups := groupsAppend st0.groups m.mountPath (vol, m) } := by
          simp [phase1Step, hfind, hcm]
        rw [hstep]
        simp only [matchedCount, List.filter_cons, hfind, Option.isSome_some, if_pos]
        simp only [groupsAppend_sum]
        simp [matchedCount]
        omega
      · have hstep : phase1Step volumes st0 m =
            { st0 with outMounts := st0.outMounts ++ [m], outVols := st0.outVols ++ [vol] } := by
          simp [phase1Step, hfind, hcm]
        rw [hstep]
        simp [matchedCount, List.filter_cons, hfind]
        omega

theorem matchedCount_le (volumes : List Volume) (mounts : List VolumeMount)
    (hnodup : (mounts.map VolumeMount.name).Nodup) :
    matchedCount volumes mounts ≤ volumes.length := by
  have hsub : (mounts.filter
      (fun m => (volumes.find? (fun v => v.name == m.name)).isSome)).map VolumeMount.name
      ⊆ volumes.map Volume.name := by
    intro n hn
    obtain ⟨m, hm, hname⟩ := List.mem_map.mp hn
    have hmem := (List.mem_filter.mp hm).2
    match hfind : volumes.find? (fun v => v.name == m.name) with
    | none => rw [hfind] at hmem; simp at hmem
    | some vol =>
      have hvm : vol ∈ volumes := List.mem_of_find?_eq_some hfind
      have hp : (vol.name == m.name) = true := by
        have h3 := List.find?_some hfind
        simpa using h3
      have heq : vol.name = m.name := eq_of_beq hp
      exact List.mem_map.mpr ⟨vol, hvm, by rw [heq, hname]⟩
  have hnd : ((mounts.filter
      (fun m => (volumes.find? (fun v => v.name == m.name)).isSome)).map VolumeMount.name).Nodup := by
    apply List.Nodup.sublist _ hnodup
    exact List.Sublist.map _ (List.filter_sublist mounts)
  have hsp := List.subperm_of_subset hnd hsub
  have := hsp.length_le
  simpa [matchedCount] using this

theorem keys_le_sum (g : List (Bytes × List (Volume × VolumeMount)))
    (hne : ∀ e ∈ g, e.2 ≠ []) : g.length ≤ sumGroups g := by
  induction g with
  | nil => simp [sumGroups]
  | cons a t ih =>
    have ha : a.2 ≠ [] := hne a (List.mem_cons_self _ _)
    have h1 : 1 ≤ a.2.length := by
      cases hl : a.2 with
      | nil => exact absurd hl ha
      | cons x xs => simp
    have ht := ih (fun e he => hne e (List.mem_cons_of_mem _ he))
    simp only [sumGroups, List.map_cons, List.sum_cons, List.length_cons] at *
    omega

/-- The projected-volume index of a collapsed mount path: the number of
groups that collapse (size other than one) at mount paths preceding p in the
sorted order of grouped mount paths. -/
def collapsedRank (volumes : List Volume) (mounts : List VolumeMount) (p : Bytes) : Nat :=
  (((sortBy bytesLe ((phase1 volumes mounts).groups.map Prod.fst)).takeWhile
      (fun r => !(r == p))).filter
    (fun r => !((groupOf volumes mounts r).length == 1))).length

/-- Claim C6: collapsing replaces each group of two or more ConfigMap- or
Secret-backed volumes sharing a mount path by a single projected volume named
proj-vol-<i> (indices assigned in sorted mount-path order) mounted read-only
at that path, passes singleton groups, unmatched mounts, and
non-ConfigMap/Secret volumes through, preserves the set of container mount
paths, and never increases the number of volumes (for assembled lists, whose
mount names are distinct). -/
theorem collapseVolumeMounts_spec (volumes : List Volume) (mounts : List VolumeMount)
    (hnodup : (mounts.map VolumeMount.name).Nodup) :
    (∀ p, p ∈ (collapseVolumeMounts volumes mounts).2.map VolumeMount.mountPath ↔
          p ∈ mounts.map VolumeMount.mountPath)
    ∧ (collapseVolumeMounts volumes mounts).1.length ≤ volumes.length
    ∧ (∀ p vm, groupOf volumes mounts p = [vm] →
        vm.1 ∈ (collapseVolumeMounts volumes mounts).1
        ∧ vm.2 ∈ (collapseVolumeMounts volumes mounts).2)
    ∧ (∀ m ∈ mounts, ∀ vol, volumes.find? (fun v => v.name == m.name) = some vol →
        isCMorSecret vol = false →
        vol ∈ (collapseVolumeMounts volumes mounts).1
        ∧ m ∈ (collapseVolumeMounts volumes mounts).2)
    ∧ (∀ m ∈ mounts, volumes.find? (fun v => v.name == m.name) = none →
        m ∈ (collapseVolumeMounts volumes mounts).2)
    ∧ (∀ p, 2 ≤ (groupOf volumes mounts p).length →
        Volume.mk (projVolName (collapsedRank volumes mounts p))
            (.projected ((groupOf volumes mounts p).filterMap (fun vm => projectionOf vm.1)))
          ∈ (collapseVolumeMounts volumes mounts).1
        ∧ VolumeMount.mk (projVolName (collapsedRank volumes mounts p)) p [] true
          ∈ (collapseVolumeMounts volumes mounts).2) := by
  have hlookup : ∀ p, lookupGroup (phase1 volumes mounts).groups p = groupOf volumes mounts p := by
    intro p
    have := phase1_groups_lookup volumes mounts ⟨[], [], []⟩ p
    simpa [phase1, lookupGroup] using this
  have houtM : (phase1 volumes mounts).outMounts = passMounts volumes mounts := by
    have := phase1_outMounts volumes mounts ⟨[], [], []⟩
    simpa [phase1] using this
  have houtV : (phase1 volumes mounts).outVols = passVols volumes mounts := by
    have := phase1_outVols volumes mounts ⟨[], [], []⟩
    simpa [phase1] using this
  have hvalne : ∀ e ∈ (phase1 volumes mounts).groups, e.2 ≠ [] := by
    apply phase1_values_ne volumes mounts ⟨[], [], []⟩
    simp
  have hkeysnd : ((phase1 volumes mounts).groups.map Prod.fst).Nodup := by
    apply phase1_keys_nodup volumes mounts ⟨[], [], []⟩
    simp
  have hsp_perm : (sortBy bytesLe ((phase1 volumes mounts).groups.map Prod.fst)).Perm
      ((phase1 volumes mounts).groups.map Prod.fst) := sortBy_perm _ _
  have hmemsp : ∀ p, p ∈ sortBy bytesLe ((phase1 volumes mounts).groups.map Prod.fst) ↔
      groupOf volumes mounts p ≠ [] := by
    intro p
    rw [hsp_perm.mem_iff, lookupGroup_mem_keys hvalne, hlookup]
  have hpm : ∀ q ∈ sortBy bytesLe ((phase1 volumes mounts).groups.map Prod.fst),
      ∀ vm ∈ lookupGroup (phase1 volumes mounts).groups q, vm.2.mountPath = q := by
    intro q _ vm hvm
    rw [hlookup] at hvm
    exact (groupOf_mountPath hvm).1
  have hcvm : collapseVolumeMounts volumes mounts =
      ((phase1 volumes mounts).outVols
          ++ (renderGroups (phase1 volumes mounts).groups
              (sortBy bytesLe ((phase1 volumes mounts).groups.map Prod.fst)) 0).1,
        (phase1 volumes mounts).outMounts
          ++ (renderGroups (phase1 volumes mounts).groups
              (sortBy bytesLe ((phase1 volumes mounts).groups.map Prod.fst)) 0).2) := rfl
  refine ⟨?_, ?_, ?_, ?_, ?_, ?_⟩
  · -- mount path set preservation
    intro p
    rw [hcvm]
    simp only [List.map_append, List.mem_append]
    constructor
    · rintro (h1 | h1)
      · obtain ⟨mo, hmo, hpath⟩ := List.mem_map.mp h1
        rw [houtM] at hmo
        have := (List.mem_filter.mp hmo).1
        exact List.mem_map.mpr ⟨mo, this, hpath⟩
      · obtain ⟨mo, hmo, hpath⟩ := List.mem_map.mp h1
        have hin := renderGroups_mountPaths hpm 0 mo hmo
        rw [hpath] at hin
        have hne2 := (hmemsp p).mp hin
        match hg : groupOf volumes mounts p with
        | [] => exact absurd hg hne2
        | vm :: _ =>
          have hvm : vm ∈ groupOf volumes mounts p := by rw [hg]; simp
          obtain ⟨h2, h3⟩ := groupOf_mountPath hvm
          exact List.mem_map.mpr ⟨vm.2, h3, h2⟩
    · intro h1
      obtain ⟨m, hm, hpath⟩ := List.mem_map.mp h1
      match hfind : volumes.find? (fun v => v.name == m.name) with
      | none =>
        left
        apply List.mem_map.mpr
        refine ⟨m, ?_, hpath⟩
        rw [houtM]
        apply List.mem_filter.mpr
        refine ⟨hm, ?_⟩
        rw [hfind]
      | some vol =>
        by_cases hcm : isCMorSecret vol = true
        · right
          have hg : (vol, m) ∈ groupOf volumes mounts m.mountPath := mem_groupOf hm hfind hcm
          have hne2 : groupOf volumes mounts p ≠ [] := by
            rw [← hpath]
            exact List.ne_nil_of_mem hg
          have hsp : p ∈ sortBy bytesLe ((phase1 volumes mounts).groups.map Prod.fst) :=
            (hmemsp p).mpr hne2
          obtain ⟨mo, hmo, hmop⟩ := renderGroups_covers hpm 0 p hsp
          exact List.mem_map.mpr ⟨mo, hmo, hmop⟩
        · left
          apply List.mem_map.mpr
          refine ⟨m, ?_, hpath⟩
          rw [houtM]
          apply List.mem_filter.mpr
          refine ⟨hm, ?_⟩
          rw [hfind]
          simpa using hcm
  · -- the number of volumes never increases
    rw [hcvm]
    simp only [List.length_append]
    have h1 := (renderGroups_lengths (phase1 volumes mounts).groups
      (sortBy bytesLe ((phase1 volumes mounts).groups.map Prod.fst)) 0).1
    have h2 : (sortBy bytesLe ((phase1 volumes mounts).groups.map Prod.fst)).length
        = (phase1 volumes mounts).groups.length := by
      rw [hsp_perm.length_eq]
      simp
    have h3 := keys_le_sum (phase1 volumes mounts).groups hvalne
    have h4 := phase1_count volumes mounts ⟨[], [], []⟩
    have hfold : (mounts.foldl (phase1Step volumes) (⟨[], [], []⟩ : Phase1State))
        = phase1 volumes mounts := rfl
    rw [hfold] at h4
    have hz1 : (Phase1State.mk [] [] []).outVols.length = 0 := rfl
    have hz2 : sumGroups (Phase1State.mk [] [] []).groups = 0 := rfl
    rw [hz1, hz2] at h4
    have h5 := matchedCount_le volumes mounts hnodup
    omega
  · -- singleton groups pass through unchanged
    intro p vm hg
    have hsp : p ∈ sortBy bytesLe ((phase1 volumes mounts).groups.map Prod.fst) :=
      (hmemsp p).mpr (by rw [hg]; simp)
    have := renderGroups_single_mem hsp (by rw [hlookup, hg]) 0
    rw [hcvm]
    exact ⟨List.mem_append.mpr (Or.inr this.1), List.mem_append.mpr (Or.inr this.2)⟩
  · -- non-ConfigMap/Secret volumes pass through unchanged
    intro m hm vol hfind hcm
    rw [hcvm]
    constructor
    · apply List.mem_append.mpr
      left
      rw [houtV]
      apply List.mem_filterMap.mpr
      refine ⟨m, hm, ?_⟩
      rw [hfind]
      simp [hcm]
    · apply List.mem_append.mpr
      left
      rw [houtM]
      apply List.mem_filter.mpr
      refine ⟨hm, ?_⟩
      rw [hfind]
      simp [hcm]
  · -- mounts with no matching volume pass through
    intro m hm hfind
    rw [hcvm]
    apply List.mem_append.mpr
    left
    rw [houtM]
    apply List.mem_filter.mpr
    refine ⟨hm, ?_⟩
    rw [hfind]
  · -- groups of two or more become one read-only projected volume
    intro p hlen
    have hne2 : groupOf volumes mounts p ≠ [] := by
      intro hc
      rw [hc] at hlen
      simp at hlen
    have hsp : p ∈ sortBy bytesLe ((phase1 volumes mounts).groups.map Prod.fst) :=
      (hmemsp p).mpr hne2
    have hmulti : ∀ vm, lookupGroup (phase1 volumes mounts).groups p ≠ [vm] := by
      intro vm hc
      rw [hlookup] at hc
      rw [hc] at hlen
      simp at hlen
    have hmm := renderGroups_multi_mem hsp hmulti 0
    have hfun : (fun r => !((lookupGroup (phase1 volumes mounts).groups r).length == 1))
        = (fun r => !((groupOf volumes mounts r).length == 1)) := by
      funext r
      rw [hlookup]
    rw [hfun] at hmm
    rw [hlookup] at hmm
    have hrank : 0 + (((sortBy bytesLe ((phase1 volumes mounts).groups.map Prod.fst)).takeWhile
        (fun r => !(r == p))).filter
          (fun r => !((groupOf volumes mounts r).length == 1))).length
        = collapsedRank volumes mounts p := by
      simp [collapsedRank]
    rw [hrank] at hmm
    rw [hcvm]
    exact ⟨List.mem_append.mpr (Or.inr hmm.1), List.mem_append.mpr (Or.inr hmm.2)⟩

/-- A concrete assembled list for the collapsing witness: two ConfigMap
files and one Secret file mounted at /etc/app, plus an emptyDir-style volume
at /data. -/
def exVolumes : List Volume :=
  [⟨strBytes "file-0", .configMap (strBytes "cm-a") []⟩,
    ⟨strBytes "file-1", .configMap (strBytes "cm-b") []⟩,
    ⟨strBytes "file-2", .secret (strBytes "sec-c") []⟩,
    ⟨strBytes "vol-0", .other (strBytes "emptyDir")⟩]

def exMounts : List VolumeMount :=
  [⟨strBytes "file-0", strBytes "/etc/app", [], false⟩,
    ⟨strBytes "file-1", strBytes "/etc/app", [], false⟩,
    ⟨strBytes "file-2", strBytes "/etc/app", [], false⟩,
    ⟨strBytes "vol-0", strBytes "/data", [], false⟩]

/-- Witness for claim C6 at the concrete assembled lists. -/
theorem collapseVolumeMounts_spec_witness :
    (∀ p, p ∈ (collapseVolumeMounts exVolumes exMounts).2.map VolumeMount.mountPath ↔
          p ∈ exMounts.map VolumeMount.mountPath)
    ∧ (collapseVolumeMounts exVolumes exMounts).1.length ≤ exVolumes.length
    ∧ (∀ p vm, groupOf exVolumes exMounts p = [vm] →
        vm.1 ∈ (collapseVolumeMounts exVolumes exMounts).1
        ∧ vm.2 ∈ (collapseVolumeMounts exVolumes exMounts).2)
    ∧ (∀ m ∈ exMounts, ∀ vol, exVolumes.find? (fun v => v.name == m.name) = some vol →
        isCMorSecret vol = false →
        vol ∈ (collapseVolumeMounts exVolumes exMounts).1
        ∧ m ∈ (collapseVolumeMounts exVolumes exMounts).2)
    ∧ (∀ m ∈ exMounts, exVolumes.find? (fun v => v.name == m.name) = none →
        m ∈ (collapseVolumeMounts exVolumes exMounts).2)
    ∧ (∀ p, 2 ≤ (groupOf exVolumes exMounts p).length →
        Volume.mk (projVolName (collapsedRank exVolumes exMounts p))
            (.projected ((groupOf exVolumes exMounts p).filterMap (fun vm => projectionOf vm.1)))
          ∈ (collapseVolumeMounts exVolumes exMounts).1
        ∧ VolumeMount.mk (projVolName (collapsedRank exVolumes exMounts p)) p [] true
          ∈ (collapseVolumeMounts exVolumes exMounts).2) :=
  collapseVolumeMounts_spec exVolumes exMounts (by decide)

/-! Provisioner output application, from the provisioners package
(ApplyToStateAndProject) and the state model. -/

/-- Association-list lookup for a Go map with string keys. -/
def mapLookup {α : Type} (m : List (String × α)) (k : String) : Option α :=
  (m.find? (fun kv => kv.1 == k)).map Prod.snd

/-- Association-list insert-or-replace for a Go map with string keys. -/
def mapInsert {α : Type} (m : List (String × α)) (k : String) (v : α) :
    List (String × α) :=
  match m with
  | [] => [(k, v)]
  | (k2, v2) :: t => if k2 == k then (k, v) :: t else (k2, v2) :: mapInsert t k v

/-- Association-list delete for a Go map with string keys. -/
def mapErase {α : Type} (m : List (String × α)) (k : String) : List (String × α) :=
  m.filter (fun kv => !(kv.1 == k))

/-- Modelled from the spec: util.PatchMap is not part of the sources under
src (only its callers are).  Section 4.6 of the specification describes the
shared-state patch: keys with a null value are deleted, all other keys
overwrite.  The patch entries are a Go map, so keys are unique and iteration
order is immaterial. -/
def PatchMap (current patch : List (String × Value)) : List (String × Value) :=
  patch.foldl (fun acc kv =>
    match kv.2 with
    | .null => mapErase acc kv.1
    | v => mapInsert acc kv.1 v) current

/-- framework.ScoreResourceState with the ResourceExtras of score-k8s: the
per-resource state persisted between runs plus in-memory manifests. -/
structure ResourceState where
  guid : String
  resType : String
  resClass : String
  resId : String
  metadata : List (String × Value)
  params : List (String × Value)
  sourceWorkload : String
  state : List (String × Value)
  outputs : List (String × Value)
  provisionerUri : String
  manifests : List Value

/-- The zero value of ResourceState (a missing Go map entry). -/
def emptyResourceState : ResourceState :=
  ⟨"", "", "", "", [], [], "", [], [], "", []⟩

/-- The slice of framework.State used by the dispatcher: the resource map and
the shared state. -/
structure ProjState where
  resources : List (String × ResourceState)
  sharedState : List (String × Value)

/-- ProvisionOutput: nil maps are distinguished from empty ones with Option,
matching the Go nil checks; the Manifests slice needs no such distinction. -/
structure ProvisionOutput where
  provisionerUri : String
  resourceState : Option (List (String × Value))
  resourceOutputs : Option (List (String × Value))
  sharedState : Option (List (String × Value))
  manifests : List Value

/-- ApplyToStateAndProject: replace the resource's provisioner uri, state,
outputs and manifests with the returned values (empty when missing), patch
the shared state when one was returned, leave every other resource alone.
The OutputLookupFunc function pointer used only by built-in test provisioners
is not part of the state data model. -/
def ApplyToStateAndProject (po : ProvisionOutput) (state : ProjState) (resUid : String) :
    Except String ProjState :=
  match mapLookup state.resources resUid with
  | none => .error "failed to apply to state - unknown res uid"
  | some existing =>
    let existing2 := { existing with
      provisionerUri := po.provisionerUri,
      state := po.resourceState.getD [],
      outputs := po.resourceOutputs.getD [],
      manifests := po.manifests }
    let shared := match po.sharedState with
      | none => state.sharedState
      | some patch => PatchMap state.sharedState patch
    .ok { resources := mapInsert state.resources resUid existing2, sharedState := shared }

theorem mapLookup_mapInsert_self {α : Type} (m : List (String × α)) (k : String) (v : α) :
    mapLookup (mapInsert m k v) k = some v := by
  induction m with
  | nil => simp [mapInsert, mapLookup]
  | cons kv t ih =>
    obtain ⟨k2, v2⟩ := kv
    simp only [mapInsert]
    by_cases h : k2 = k
    · subst h
      simp [mapLookup]
    · rw [if_neg (by simpa using h)]
      simp only [mapLookup, List.find?_cons]
      have : (k2 == k) = false := by simpa using h
      rw [this]
      exact ih

theorem mapLookup_mapInsert_ne {α : Type} (m : List (String × α)) (k k2 : String) (v : α)
    (h : k2 ≠ k) : mapLookup (mapInsert m k v) k2 = mapLookup m k2 := by
  have h2 : (k == k2) = false := by
    simp only [beq_eq_false_iff_ne, ne_eq]
    intro hc
    exact h hc.symm
  induction m with
  | nil =>
    simp only [mapInsert, mapLookup, List.find?_cons, List.find?_nil, h2]
  | cons kv t ih =>
    obtain ⟨k3, v3⟩ := kv
    simp only [mapInsert]
    by_cases h3 : k3 = k
    · subst h3
      rw [if_pos (by simp)]
      simp only [mapLookup, List.find?_cons, h2]
    · rw [if_neg (by simpa using h3)]
      simp only [mapLookup, List.find?_cons]
      by_cases h4 : k3 = k2
      · subst h4
        simp
      · have h5 : (k3 == k2) = false := by simpa using h4
        rw [h5]
        exact ih

theorem mapLookup_mapErase_self {α : Type} (m : List (String × α)) (k : String) :
    mapLookup (mapErase m k) k = none := by
  induction m with
  | nil => rfl
  | cons kv t ih =>
    obtain ⟨k2, v2⟩ := kv
    simp only [mapErase, List.filter_cons]
    by_cases h : k2 = k
    · subst h
      simp only [beq_self_eq_true, Bool.not_true, Bool.false_eq_true, if_false]
      exact ih
    · have h2 : (k2 == k) = false := by simpa using h
      simp only [h2, Bool.not_false, if_pos]
      show mapLookup ((k2, v2) :: mapErase t k) k = none
      simp only [mapLookup, List.find?_cons, h2]
      exact ih

theorem mapLookup_mapErase_ne {α : Type} (m : List (String × α)) (k k2 : String)
    (h : k2 ≠ k) : mapLookup (mapErase m k) k2 = mapLookup m k2 := by
  induction m with
  | nil => rfl
  | cons kv t ih =>
    obtain ⟨k3, v3⟩ := kv
    simp only [mapErase, List.filter_cons]
    by_cases h3 : k3 = k
    · subst h3
      simp only [beq_self_eq_true, Bool.not_true, Bool.false_eq_true, if_false]
      show mapLookup (mapErase t k3) k2 = mapLookup ((k3, v3) :: t) k2
      rw [ih]
      simp only [mapLookup, List.find?_cons]
      have : (k3 == k2) = false := by
        simp only [beq_eq_false_iff_ne, ne_eq]
        intro hc
        exact h (hc ▸ rfl)
      rw [this]
    · have hne : (k3 == k) = false := by simpa using h3
      simp only [hne, Bool.not_false, if_pos]
      show mapLookup ((k3, v3) :: mapErase t k) k2 = mapLookup ((k3, v3) :: t) k2
      simp only [mapLookup, List.find?_cons]
      by_cases h4 : k3 = k2
      · subst h4
        simp
      · have h5 : (k3 == k2) = false := by simpa using h4
        rw [h5]
        exact ih

/-- The pointwise description of the shared-state patch. -/
theorem PatchMap_lookup (current patch : List (String × Value)) (k : String)
    (hnodup : (patch.map Prod.fst).Nodup) :
    mapLookup (PatchMap current patch) k =
      match mapLookup patch k with
      | some Value.null => none
      | some v => some v
      | none => mapLookup current k := by
  induction patch generalizing current with
  | nil => simp [PatchMap, mapLookup]
  | cons kv t ih =>
    obtain ⟨k2, v2⟩ := kv
    simp only [List.map_cons, List.nodup_cons] at hnodup
    obtain ⟨hk2, hnd⟩ := hnodup
    simp only [PatchMap, List.foldl_cons]
    have hstep := ih (match v2 with
      | .null => mapErase current k2
      | v => mapInsert current k2 v) hnd
    simp only [PatchMap] at hstep
    rw [hstep]
    by_cases hkk : k2 = k
    · subst hkk
      have htl : mapLookup t k2 = none := by
        have hfind : List.find? (fun kv => kv.1 == k2) t = none := by
          apply List.find?_eq_none.mpr
          intro kv2 hkv2 hc
          exact hk2 (List.mem_map.mpr ⟨kv2, hkv2, eq_of_beq hc⟩)
        simp [mapLookup, hfind]
      have hhd : mapLookup ((k2, v2) :: t) k2 = some v2 := by
        unfold mapLookup
        rw [List.find?_cons_of_pos _ (by simp)]
        rfl
      rw [htl, hhd]
      match v2 with
      | .null => simp [mapLookup_mapErase_self]
      | .boolean b => simp [mapLookup_mapInsert_self]
      | .num n => simp [mapLookup_mapInsert_self]
      | .str s => simp [mapLookup_mapInsert_self]
      | .arr l => simp [mapLookup_mapInsert_self]
      | .obj l => simp [mapLookup_mapInsert_self]
    · have hhd : mapLookup ((k2, v2) :: t) k = mapLookup t k := by
        simp only [mapLookup, List.find?_cons]
        have : (k2 == k) = false := by simpa using hkk
        rw [this]
      rw [hhd]
      match hmt : mapLookup t k with
      | some v => cases v <;> rfl
      | none =>
        match v2 with
        | .null => exact mapLookup_mapErase_ne current k2 k (fun hc => hkk hc.symm)
        | .boolean b => exact mapLookup_mapInsert_ne current k2 k _ (fun hc => hkk hc.symm)
        | .num n => exact mapLookup_mapInsert_ne current k2 k _ (fun hc => hkk hc.symm)
        | .str s => exact mapLookup_mapInsert_ne current k2 k _ (fun hc => hkk hc.symm)
        | .arr l => exact mapLookup_mapInsert_ne current k2 k _ (fun hc => hkk hc.symm)
        | .obj l => exact mapLookup_mapInsert_ne current k2 k _ (fun hc => hkk hc.symm)

/-- Claim C7: applying a successful provisioner output replaces the
resource's state, outputs and auxiliary manifests with the returned values
(empty when missing) and records the provisioner uri; the shared state is
merged by patching (null deletes, other keys overwrite; untouched when no
shared state was returned); every other resource is unchanged. -/
theorem ApplyToStateAndProject_spec (po : ProvisionOutput) (state : ProjState)
    (uid : String) (existing : ResourceState)
    (h : mapLookup state.resources uid = some existing)
    (hpn : ∀ patch, po.sharedState = some patch → (patch.map Prod.fst).Nodup) :
    ∃ state2, ApplyToStateAndProject po state uid = .ok state2
      ∧ mapLookup state2.resources uid = some { existing with
          provisionerUri := po.provisionerUri,
          state := po.resourceState.getD [],
          outputs := po.resourceOutputs.getD [],
          manifests := po.manifests }
      ∧ (∀ uid2, uid2 ≠ uid → mapLookup state2.resources uid2 = mapLookup state.resources uid2)
      ∧ (∀ k, mapLookup state2.sharedState k =
          match po.sharedState with
          | none => mapLookup state.sharedState k
          | some patch =>
            match mapLookup patch k with
            | some Value.null => none
            | some v => some v
            | none => mapLookup state.sharedState k) := by
  refine ⟨{ resources := mapInsert state.resources uid { existing with provisionerUri := po.provisionerUri, state := po.resourceState.getD [], outputs := po.resourceOutputs.getD [], manifests := po.manifests }, sharedState := match po.sharedState with | none => state.sharedState | some patch => PatchMap state.sharedState patch }, ?_, ?_, ?_, ?_⟩
  · simp only [ApplyToStateAndProject, h]
  · exact mapLookup_mapInsert_self state.resources uid _
  · intro uid2 h2
    exact mapLookup_mapInsert_ne state.resources uid uid2 _ h2
  · intro k
    match hs : po.sharedState with
    | none => rfl
    | some patch =>
      exact PatchMap_lookup state.sharedState patch k (hpn patch hs)

/-- Witness for claim C7 on concrete state: the resource res1 holds old
state, outputs and a manifest; the output replaces them, deletes shared key a
via null, overwrites shared key b, and leaves resource res2 alone. -/
theorem ApplyToStateAndProject_spec_witness :
    ∃ state2,
      ApplyToStateAndProject
          ⟨"tpl://x", some [("n", Value.num 2)], none, some [("a", Value.null), ("b", Value.num 9)],
            [Value.str [107]]⟩
          ⟨[("res1", ⟨"", "", "", "", [], [], "", [("n", Value.num 1)], [("o", Value.num 5)], "", [Value.null]⟩),
            ("res2", emptyResourceState)],
            [("a", Value.num 7), ("c", Value.num 8)]⟩
          "res1" = .ok state2
      ∧ mapLookup state2.resources "res1" =
          some ⟨"", "", "", "", [], [], "", [("n", Value.num 2)], [], "tpl://x", [Value.str [107]]⟩
      ∧ (∀ uid2, uid2 ≠ "res1" →
          mapLookup state2.resources uid2 = mapLookup
            ([("res1", ⟨"", "", "", "", [], [], "", [("n", Value.num 1)], [("o", Value.num 5)], "", [Value.null]⟩),
              ("res2", emptyResourceState)] : List (String × ResourceState)) uid2)
      ∧ (∀ k, mapLookup state2.sharedState k =
          match (some [("a", Value.null), ("b", Value.num 9)] :
              Option (List (String × Value))) with
          | none => mapLookup ([("a", Value.num 7), ("c", Value.num 8)] : List (String × Value)) k
          | some patch =>
            match mapLookup patch k with
            | some Value.null => none
            | some v => some v
            | none => mapLookup ([("a", Value.num 7), ("c", Value.num 8)] :
                List (String × Value)) k) := by
  apply ApplyToStateAndProject_spec _ _ _
      (⟨"", "", "", "", [], [], "", [("n", Value.num 1)], [("o", Value.num 5)], "", [Value.null]⟩ :
        ResourceState)
  · rfl
  · intro patch hp
    cases hp
    simp

/-- framework.ResourceUid is a string key whose Type/Class/Id accessors parse
fixed segments out of it; the parsing code is not part of this repository, so
the accessors are modelled as independent fields alongside the string form
used for map keys and error messages. -/
structure ResourceUid where
  uidStr : String
  resType : String
  resClass : String
  resId : String
deriving DecidableEq

/-- The Input handed to a provisioner, with the fields the dispatcher fills
from the resource state and uid; WorkloadServices is built from external
score types before the loop and passed through opaquely, so it is omitted. -/
structure Input where
  resourceGuid : String
  resourceUid : String
  resourceType : String
  resourceClass : String
  resourceId : String
  resourceParams : List (String × Value)
  resourceMetadata : List (String × Value)
  resourceState : List (String × Value)
  sourceWorkload : String
  sharedState : List (String × Value)

/-- A provisioner as the dispatcher sees it: its uri, the match filters of the
template provisioner (type required, class and id optional), and the Provision
interface call as an oracle from the input data it receives. -/
structure Provisioner where
  uri : String
  resType : String
  resClass : Option String
  resId : Option String
  provision : Input → Except String ProvisionOutput

/-- Provisioner.Match from the template provisioner: the type must equal,
then class and id act as optional filters. -/
def Provisioner.Match (p : Provisioner) (resUid : ResourceUid) : Bool :=
  if resUid.resType != p.resType then false
  else if (match p.resClass with | some c => resUid.resClass != c | none => false) then false
  else if (match p.resId with | some i => resUid.resId != i | none => false) then false
  else true

/-- One iteration of the ProvisionResources loop for resource resUid:
look up the resource (Go map zero value when absent), select the first
matching provisioner, fail when none matches, fail when the persisted
provisionerUri pins a different provisioner, resolve params (the
score-go GetResourceOutputForWorkload / BuildSubstitutionFunction /
Substitute block is the resolveParams oracle, returning its errors already
wrapped), call Provision, set the output uri to the chosen provisioner and
apply it to the state. The WorkloadServices input field is computed once
from the pre-loop state by external score types and passed through opaquely;
it is omitted. -/
def provisionStep (provisioners : List Provisioner)
    (resolveParams : ProjState → ResourceUid → ResourceState →
      Except String (List (String × Value)))
    (state : ProjState) (resUid : ResourceUid) : Except String ProjState :=
  let resState := (mapLookup state.resources resUid.uidStr).getD emptyResourceState
  match provisioners.find? (fun provisioner => provisioner.Match resUid) with
  | none => .error ("resource " ++ squote ++ resUid.uidStr ++ squote ++
      " is not supported by any provisioner")
  | some provisioner =>
    if resState.provisionerUri != "" && resState.provisionerUri != provisioner.uri then
      .error ("resource " ++ squote ++ resUid.uidStr ++ squote ++
        " was previously provisioned by a different provider - undefined behavior")
    else
      match (if resState.params.isEmpty then .ok []
             else resolveParams state resUid resState) with
      | .error e => .error e
      | .ok params =>
        match provisioner.provision
            { resourceGuid := resState.guid,
              resourceUid := resUid.uidStr,
              resourceType := resUid.resType,
              resourceClass := resUid.resClass,
              resourceId := resUid.resId,
              resourceParams := params,
              resourceMetadata := resState.metadata,
              resourceState := resState.state,
              sourceWorkload := resState.sourceWorkload,
              sharedState := state.sharedState } with
        | .error e => .error ("resource " ++ squote ++ resUid.uidStr ++ squote ++
            ": failed to provision: " ++ e)
        | .ok output =>
          match ApplyToStateAndProject { output with provisionerUri := provisioner.uri }
              state resUid.uidStr with
          | .error e => .error ("resource " ++ squote ++ resUid.uidStr ++ squote ++
              ": failed to apply outputs: " ++ e)
          | .ok state2 => .ok state2

/-- ProvisionResources: fold provisionStep over the resource uids in the
sorted order computed by GetSortedResourceUids (the order list is taken as
an argument because the topological sort lives in the external score-go
framework). -/
def ProvisionResources (provisioners : List Provisioner)
    (resolveParams : ProjState → ResourceUid → ResourceState →
      Except String (List (String × Value)))
    (state : ProjState) : List ResourceUid → Except String ProjState
  | [] => .ok state
  | resUid :: rest =>
    match provisionStep provisioners resolveParams state resUid with
    | .error e => .error e
    | .ok out2 => ProvisionResources provisioners resolveParams out2 rest

theorem find?_split {α : Type} (p : α → Bool) :
    ∀ (l : List α) (x : α), l.find? p = some x →
      ∃ l1 l2, l = l1 ++ x :: l2 ∧ p x = true ∧ ∀ q ∈ l1, p q = false := by
  intro l
  induction l with
  | nil => intro x hx; cases hx
  | cons a t ih =>
    intro x hx
    by_cases ha : p a = true
    · rw [List.find?_cons_of_pos _ ha] at hx
      cases hx
      exact ⟨[], t, rfl, ha, by simp⟩
    · have ha2 : p a = false := by simpa using ha
      rw [List.find?_cons_of_neg _ (by simp [ha2])] at hx
      obtain ⟨l1, l2, heq, hpx, hall⟩ := ih x hx
      refine ⟨a :: l1, l2, by simp [heq], hpx, ?_⟩
      intro q hq
      rcases List.mem_cons.mp hq with h | h
      · rw [h]; exact ha2
      · exact hall q h

/-- Claim C8: dispatch for the resource at the head of the sorted order.
If no registered provisioner matches the uid, provisioning fails with exactly
the not-supported error. The selected provisioner is the first in registry
order whose Match accepts the uid. If the persisted provisionerUri is
non-empty and differs from the matched provisioner's uri, provisioning fails
with the hard pin error for every params oracle and every provision
behaviour, so the resource is never re-provisioned. -/
theorem ProvisionResources_dispatch (provisioners : List Provisioner)
    (resolveParams : ProjState → ResourceUid → ResourceState →
      Except String (List (String × Value)))
    (state : ProjState) (resUid : ResourceUid) (rest : List ResourceUid) :
    ((∀ q ∈ provisioners, q.Match resUid = false) →
      ProvisionResources provisioners resolveParams state (resUid :: rest) =
        .error ("resource " ++ squote ++ resUid.uidStr ++ squote ++
          " is not supported by any provisioner"))
    ∧ (∀ p, provisioners.find? (fun q => q.Match resUid) = some p →
        ∃ l1 l2, provisioners = l1 ++ p :: l2 ∧ p.Match resUid = true ∧
          ∀ q ∈ l1, q.Match resUid = false)
    ∧ (∀ p, provisioners.find? (fun q => q.Match resUid) = some p →
        ((mapLookup state.resources resUid.uidStr).getD emptyResourceState).provisionerUri
          ≠ "" →
        ((mapLookup state.resources resUid.uidStr).getD emptyResourceState).provisionerUri
          ≠ p.uri →
        ProvisionResources provisioners resolveParams state (resUid :: rest) =
          .error ("resource " ++ squote ++ resUid.uidStr ++ squote ++
            " was previously provisioned by a different provider - undefined behavior")) := by
  refine ⟨?_, ?_, ?_⟩
  · intro hall
    have hfind : provisioners.find? (fun q => q.Match resUid) = none := by
      apply List.find?_eq_none.mpr
      intro q hq
      simp [hall q hq]
    simp only [ProvisionResources, provisionStep, hfind]
  · intro p hp
    exact find?_split _ provisioners p hp
  · intro p hp h1 h2
    have hcond : (((mapLookup state.resources resUid.uidStr).getD
          emptyResourceState).provisionerUri != ""
        && ((mapLookup state.resources resUid.uidStr).getD
          emptyResourceState).provisionerUri != p.uri) = true := by
      simp only [Bool.and_eq_true, bne_iff_ne, ne_eq]
      exact ⟨h1, h2⟩
    simp only [ProvisionResources, provisionStep, hp, hcond, if_true]

/-- Witness for claim C8: a single provisioner of the wrong type yields the
not-supported error; a registry where the matching provisioner comes second
selects it first-wins past the non-matching one, and when the resource was
pinned to a different uri, provisioning fails with the pin error. -/
theorem ProvisionResources_dispatch_witness :
    (ProvisionResources
        [⟨"tpl://a", "other", none, none, fun _ => .ok ⟨"", none, none, none, []⟩⟩]
        (fun _ _ _ => .ok []) ⟨[], []⟩ [⟨"test.res#x", "thing", "default", "x"⟩] =
      .error ("resource " ++ squote ++ "test.res#x" ++ squote ++
        " is not supported by any provisioner"))
    ∧ (∃ l1 l2,
        ([⟨"tpl://a", "other", none, none, fun _ => .ok ⟨"", none, none, none, []⟩⟩,
          ⟨"tpl://b", "thing", none, none, fun _ => .ok ⟨"", none, none, none, []⟩⟩] :
            List Provisioner) =
          l1 ++ (⟨"tpl://b", "thing", none, none, fun _ => .ok ⟨"", none, none, none, []⟩⟩ :
            Provisioner) :: l2 ∧
        Provisioner.Match ⟨"tpl://b", "thing", none, none, fun _ => .ok ⟨"", none, none, none, []⟩⟩
          ⟨"test.res#x", "thing", "default", "x"⟩ = true ∧
        ∀ q ∈ l1, Provisioner.Match q ⟨"test.res#x", "thing", "default", "x"⟩ = false)
    ∧ (ProvisionResources
        [⟨"tpl://a", "other", none, none, fun _ => .ok ⟨"", none, none, none, []⟩⟩,
         ⟨"tpl://b", "thing", none, none, fun _ => .ok ⟨"", none, none, none, []⟩⟩]
        (fun _ _ _ => .ok [])
        ⟨[("test.res#x", ⟨"", "", "", "", [], [], "", [], [], "tpl://old", []⟩)], []⟩
        [⟨"test.res#x", "thing", "default", "x"⟩] =
      .error ("resource " ++ squote ++ "test.res#x" ++ squote ++
        " was previously provisioned by a different provider - undefined behavior")) := by
  refine ⟨?_, ?_, ?_⟩
  · apply (ProvisionResources_dispatch
        [⟨"tpl://a", "other", none, none, fun _ => .ok ⟨"", none, none, none, []⟩⟩]
        (fun _ _ _ => .ok []) ⟨[], []⟩ ⟨"test.res#x", "thing", "default", "x"⟩ []).1
    intro q hq
    rw [List.mem_singleton.mp hq]
    rfl
  · exact (ProvisionResources_dispatch
        [⟨"tpl://a", "other", none, none, fun _ => .ok ⟨"", none, none, none, []⟩⟩,
         ⟨"tpl://b", "thing", none, none, fun _ => .ok ⟨"", none, none, none, []⟩⟩]
        (fun _ _ _ => .ok [])
        ⟨[("test.res#x", ⟨"", "", "", "", [], [], "", [], [], "tpl://old", []⟩)], []⟩
        ⟨"test.res#x", "thing", "default", "x"⟩ []).2.1 _ rfl
  · exact (ProvisionResources_dispatch
        [⟨"tpl://a", "other", none, none, fun _ => .ok ⟨"", none, none, none, []⟩⟩,
         ⟨"tpl://b", "thing", none, none, fun _ => .ok ⟨"", none, none, none, []⟩⟩]
        (fun _ _ _ => .ok [])
        ⟨[("test.res#x", ⟨"", "", "", "", [], [], "", [], [], "tpl://old", []⟩)], []⟩
        ⟨"test.res#x", "thing", "default", "x"⟩ []).2.2 _ rfl
        (by simp [mapLookup]) (by simp [mapLookup])

/-- scoretypes.ContainerVolumesElem: the volume declaration on a container,
with the optional sub path and read-only flag and a source string holding a
resource placeholder. -/
structure ContainerVolumesElem where
  target : Bytes
  path : Option Bytes
  readOnly : Option Bool
  source : String

/-- coreV1.PersistentVolumeClaim as built by convertContainerVolume: the
vol-<i> name, and the claimSpec outputs value that was decoded into the
PersistentVolumeClaimSpec. -/
structure PersistentVolumeClaim where
  name : Bytes
  spec : Value

/-- convertContainerVolume: build the vol-<i> mount, resolve the source
placeholder (framework.SubstituteString with the volume substitution function
is the resolveSource oracle), look the resource up, strictly decode its
outputs into the anonymous field pair source/claimSpec (the nested
encoding/json decodes into the Kubernetes structs and their protobuf sizes
are the parseSource and parseClaimSpec oracles; the unknown-field message of
the external decoder is abbreviated; a JSON null leaves the pointer nil),
then require exactly one of source and claimSpec to be present and non-empty
and return the volume or the claim. The final none-none arm is unreachable:
it is guarded by the either-or check. -/
def convertContainerVolume (index : Nat) (volume : ContainerVolumesElem)
    (resources : List (String × ResourceState))
    (resolveSource : String → Except String String)
    (parseSource : Value → Except String (VolumeSource × Nat))
    (parseClaimSpec : Value → Except String (Value × Nat)) :
    Except String (VolumeMount × Option Volume × Option PersistentVolumeClaim) :=
  let volName := strBytes ("vol-" ++ toString index)
  let mount : VolumeMount := ⟨volName, volume.target, volume.path.getD [], volume.readOnly.getD false⟩
  match resolveSource volume.source with
  | .error e => .error ("source: failed to resolve placeholder: " ++ e)
  | .ok resolved =>
    match mapLookup resources resolved with
    | none => .error ("source: resource " ++ squote ++ resolved ++ squote ++ " does not exist")
    | some res =>
      if res.outputs.any (fun kv => kv.1 != "source" && kv.1 != "claimSpec") then
        .error ("failed to convert resource " ++ squote ++ resolved ++ squote ++
          " outputs into a Kubernetes volume: json: unknown field")
      else
        match ((match mapLookup res.outputs "source" with
               | none => .ok none
               | some Value.null => .ok none
               | some v =>
                 match parseSource v with
                 | .error e => .error e
                 | .ok sv => .ok (some sv)) :
            Except String (Option (VolumeSource × Nat))) with
        | .error e => .error ("failed to convert resource " ++ squote ++ resolved ++ squote ++
            " outputs into a Kubernetes volume: " ++ e)
        | .ok srcParsed =>
          match ((match mapLookup res.outputs "claimSpec" with
                 | none => .ok none
                 | some Value.null => .ok none
                 | some v =>
                   match parseClaimSpec v with
                   | .error e => .error e
                   | .ok cv => .ok (some cv)) :
              Except String (Option (Value × Nat))) with
          | .error e => .error ("failed to convert resource " ++ squote ++ resolved ++ squote ++
              " outputs into a Kubernetes volume: " ++ e)
          | .ok claimParsed =>
            if claimParsed.isNone == srcParsed.isNone then
              .error ("failed to convert resource " ++ squote ++ resolved ++ squote ++
                " outputs into volume: either " ++ squote ++ "source" ++ squote ++ " or " ++
                squote ++ "claimSpec" ++ squote ++ " required")
            else
              match claimParsed with
              | some (cv, csize) =>
                if csize == 0 then
                  .error ("failed to convert resource " ++ squote ++ resolved ++ squote ++
                    " outputs into volume: claimSpec is empty")
                else .ok (mount, none, some ⟨volName, cv⟩)
              | none =>
                match srcParsed with
                | some (sv, ssize) =>
                  if ssize == 0 then
                    .error ("failed to convert resource " ++ squote ++ resolved ++ squote ++
                      " outputs into volume: source is empty")
                  else .ok (mount, some ⟨volName, sv⟩, none)
                | none => .ok (mount, none, none)

/-- The volume loop of ConvertWorkload for one container: every mount is
collected; a non-nil claim goes to volumeClaimTemplates regardless of the
workload kind, otherwise a non-nil volume goes to the container volumes;
errors are wrapped with the containers.<name>.volumes.<i> prefix. -/
def convertContainerVolumesLoop (containerName : String)
    (resources : List (String × ResourceState))
    (resolveSource : String → Except String String)
    (parseSource : Value → Except String (VolumeSource × Nat))
    (parseClaimSpec : Value → Except String (Value × Nat)) :
    Nat → List ContainerVolumesElem →
    Except String (List VolumeMount × List Volume × List PersistentVolumeClaim)
  | _, [] => .ok ([], [], [])
  | i, v :: rest =>
    match convertContainerVolume i v resources resolveSource parseSource parseClaimSpec with
    | .error e => .error ("containers." ++ containerName ++ ".volumes." ++ toString i ++
        ": failed to convert: " ++ e)
    | .ok (mount, vol, claim) =>
      match convertContainerVolumesLoop containerName resources resolveSource parseSource
          parseClaimSpec (i + 1) rest with
      | .error e => .error e
      | .ok (mounts, vols, claims) =>
        .ok (mount :: mounts,
          (match claim, vol with
           | some _, _ => vols
           | none, some v2 => v2 :: vols
           | none, none => vols),
          (match claim with | some c => c :: claims | none => claims))

/-- coreV1.ServicePort with the fields the converter sets. -/
structure ServicePort where
  name : String
  port : Int
  targetPort : Int
  protocol : String

/-- coreV1.Container with the fields the converter sets. -/
structure ContainerSpec where
  name : String
  image : String
  command : List String
  args : List String
  env : List EnvVar
  volumeMounts : List VolumeMount

/-- coreV1.PodSpec with the fields the converter sets. -/
structure PodSpec where
  containers : List ContainerSpec
  volumes : List Volume

/-- coreV1.PodTemplateSpec: labels, pod annotations and the pod spec. -/
structure PodTemplateSpec where
  labels : List (String × String)
  annotations : List (String × String)
  spec : PodSpec

/-- ConverterInputs as passed from ConvertWorkload to
ConvertInputsToManifest. -/
structure ConverterInputs where
  workloadName : String
  podTemplate : PodTemplateSpec
  volumeClaimTemplates : List PersistentVolumeClaim
  servicePorts : List ServicePort
  workloadAnnotations : List (String × Value)

/-- The manifests ConvertInputsToManifest can emit, with the fields the
source sets on each of them. The deployment constructor carries no volume
claim templates: the Deployment spec never references them. -/
inductive K8sManifest where
  | deployment (name : String) (annotations labels : List (String × String))
      (selectorMatchInstance : String) (template : PodTemplateSpec)
  | service (name : String) (annotations labels : List (String × String))
      (selectorInstance : String) (clusterIP : String) (ports : List ServicePort)
  | statefulSet (name : String) (annotations labels : List (String × String))
      (selectorMatchInstance : String) (serviceName : String)
      (template : PodTemplateSpec) (volumeClaimTemplates : List PersistentVolumeClaim)

def WorkloadKindDeployment : Bytes := strBytes "Deployment"

def WorkloadKindStatefulSet : Bytes := strBytes "StatefulSet"

/-- The workload kind resolution at the top of ConvertInputsToManifest: the
k8s.score.dev/kind annotation must, when it is a non-empty string, equal
Deployment or StatefulSet; a missing, non-string or empty annotation
defaults to Deployment. -/
def workloadKindOf (workloadAnnotations : List (String × Value)) : Except String Bytes :=
  match mapLookup workloadAnnotations "k8s.score.dev/kind" with
  | some (Value.str d) =>
    if d != [] then
      if d != WorkloadKindDeployment && d != WorkloadKindStatefulSet then
        .error "metadata: annotations: k8s.score.dev/kind: unsupported workload kind"
      else .ok d
    else .ok WorkloadKindDeployment
  | _ => .ok WorkloadKindDeployment

/-- ConvertInputsToManifest: resolve the kind, then emit a single Deployment,
or a headless Service on port 99 plus a StatefulSet carrying the volume
claim templates; the switch has no default arm, so any other kind would
return no manifests and no error (unreachable after the kind check). -/
def ConvertInputsToManifest (inputs : ConverterInputs) : Except String (List K8sManifest) :=
  match workloadKindOf inputs.workloadAnnotations with
  | .error e => .error e
  | .ok kind =>
    let topLevelAnnotations := [("k8s.score.dev/workload-name", inputs.workloadName)]
    if kind == WorkloadKindDeployment then
      .ok [K8sManifest.deployment inputs.workloadName topLevelAnnotations
        inputs.podTemplate.labels
        ((mapLookup inputs.podTemplate.labels "app.kubernetes.io/instance").getD "")
        inputs.podTemplate]
    else if kind == WorkloadKindStatefulSet then
      .ok [K8sManifest.service (inputs.workloadName ++ "-headless-svc") topLevelAnnotations
          inputs.podTemplate.labels
          ((mapLookup inputs.podTemplate.labels "app.kubernetes.io/instance").getD "")
          "None" [⟨"default", 99, 99, ""⟩],
        K8sManifest.statefulSet inputs.workloadName topLevelAnnotations
          inputs.podTemplate.labels
          ((mapLookup inputs.podTemplate.labels "app.kubernetes.io/instance").getD "")
          (inputs.workloadName ++ "-headless-svc") inputs.podTemplate
          inputs.volumeClaimTemplates]
    else .ok []

/-- The resource whose outputs hold only a claimSpec, as a StatefulSet
volume would use. -/
def exResForVolume : ResourceState :=
  ⟨"", "", "", "", [], [], "", [],
    [("claimSpec", Value.obj [("storageClassName", Value.str (strBytes "standard"))])], "", []⟩

/-- A container volume pointing at that resource. -/
def exVolElem : ContainerVolumesElem := ⟨strBytes "/data", none, none, "app.res.thing"⟩

/-- The claim convertContainerVolume builds from it. -/
def exPVClaim : PersistentVolumeClaim :=
  ⟨strBytes "vol-0", Value.obj [("storageClassName", Value.str (strBytes "standard"))]⟩

/-- The pod template of the workload holding that container. -/
def exPodTemplate : PodTemplateSpec :=
  ⟨[], [], ⟨[⟨"main", "nginx", [], [], [], [⟨strBytes "vol-0", strBytes "/data", [], false⟩]⟩], []⟩⟩

/-- The converter inputs of that workload: no kind annotation, so the kind
resolves to Deployment, and the collected claim sits in
volumeClaimTemplates. -/
def exInputsC2 : ConverterInputs := ⟨"app", exPodTemplate, [exPVClaim], [], []⟩

/-- Counterexample to claim C2: a container volume resolves to a resource
whose outputs contain a claimSpec, the volume loop collects the claim into
volumeClaimTemplates, the workload kind resolves to Deployment, and
conversion succeeds with a Deployment manifest instead of returning an
error; the claim is silently dropped. -/
theorem ConvertWorkload_deployment_claimSpec_counterexample :
    convertContainerVolumesLoop "main" [("app.res.thing", exResForVolume)]
        (fun s => .ok s) (fun _ => .error "no source") (fun v => .ok (v, 1)) 0 [exVolElem] =
      .ok ([⟨strBytes "vol-0", strBytes "/data", [], false⟩], [], [exPVClaim])
    ∧ ConvertInputsToManifest exInputsC2 =
      .ok [K8sManifest.deployment "app" [("k8s.score.dev/workload-name", "app")] [] ""
        exPodTemplate] :=
  ⟨rfl, rfl⟩

/-- Claim C2: corrected. When the workload kind resolves to Deployment,
conversion does NOT fail on claimSpec-backed volumes: it succeeds with a
single Deployment manifest embedding the pod template, and the result is
independent of the collected volumeClaimTemplates, which are silently
dropped (they are only emitted by the StatefulSet branch). -/
theorem ConvertInputsToManifest_deployment_drops_claims (inputs : ConverterInputs)
    (h : workloadKindOf inputs.workloadAnnotations = .ok WorkloadKindDeployment) :
    ConvertInputsToManifest inputs =
      .ok [K8sManifest.deployment inputs.workloadName
        [("k8s.score.dev/workload-name", inputs.workloadName)] inputs.podTemplate.labels
        ((mapLookup inputs.podTemplate.labels "app.kubernetes.io/instance").getD "")
        inputs.podTemplate]
    ∧ ∀ claims2, ConvertInputsToManifest { inputs with volumeClaimTemplates := claims2 } =
        ConvertInputsToManifest inputs := by
  constructor
  · simp [ConvertInputsToManifest, h]
  · intro claims2
    have h2 : workloadKindOf
        ({ inputs with volumeClaimTemplates := claims2 } : ConverterInputs).workloadAnnotations =
        .ok WorkloadKindDeployment := h
    simp [ConvertInputsToManifest, h, h2]

/-- Witness for claim C2 at the concrete workload with a claimSpec volume:
conversion yields the Deployment and swapping the claim list leaves the
output unchanged. -/
theorem ConvertInputsToManifest_deployment_drops_claims_witness :
    ConvertInputsToManifest exInputsC2 =
      .ok [K8sManifest.deployment "app" [("k8s.score.dev/workload-name", "app")] [] ""
        exPodTemplate]
    ∧ ∀ claims2, ConvertInputsToManifest { exInputsC2 with volumeClaimTemplates := claims2 } =
        ConvertInputsToManifest exInputsC2 :=
  ConvertInputsToManifest_deployment_drops_claims exInputsC2 rfl

/-- The converter inputs of a workload with zero containers and no kind
annotation. -/
def exInputsC9 : ConverterInputs := ⟨"empty-app", ⟨[], [], ⟨[], []⟩⟩, [], [], []⟩

/-- Counterexample to claim C9: a workload with zero containers converts
without any error, emitting a Deployment whose pod spec has an empty
container list. -/
theorem ConvertWorkload_zero_containers_counterexample :
    ConvertInputsToManifest exInputsC9 =
      .ok [K8sManifest.deployment "empty-app" [("k8s.score.dev/workload-name", "empty-app")]
        [] "" ⟨[], [], ⟨[], []⟩⟩] :=
  rfl

/-- Claim C9: corrected. The converter never checks the container count: for
every workload whose kind resolves to Deployment or StatefulSet, even with
zero containers, conversion succeeds and emits at least one manifest instead
of failing cleanly. -/
theorem ConvertInputsToManifest_zero_containers (inputs : ConverterInputs)
    (hkind : workloadKindOf inputs.workloadAnnotations = .ok WorkloadKindDeployment ∨
             workloadKindOf inputs.workloadAnnotations = .ok WorkloadKindStatefulSet)
    (_hzero : inputs.podTemplate.spec.containers = []) :
    ∃ ms, ConvertInputsToManifest inputs = .ok ms ∧ ms ≠ [] := by
  rcases hkind with h | h
  · refine ⟨[K8sManifest.deployment inputs.workloadName
        [("k8s.score.dev/workload-name", inputs.workloadName)] inputs.podTemplate.labels
        ((mapLookup inputs.podTemplate.labels "app.kubernetes.io/instance").getD "")
        inputs.podTemplate], ?_, by simp⟩
    simp [ConvertInputsToManifest, h]
  · have hne : (WorkloadKindStatefulSet == WorkloadKindDeployment) = false := by rfl
    have heq : (WorkloadKindStatefulSet == WorkloadKindStatefulSet) = true := by rfl
    refine ⟨[K8sManifest.service (inputs.workloadName ++ "-headless-svc")
        [("k8s.score.dev/workload-name", inputs.workloadName)] inputs.podTemplate.labels
        ((mapLookup inputs.podTemplate.labels "app.kubernetes.io/instance").getD "")
        "None" [⟨"default", 99, 99, ""⟩],
      K8sManifest.statefulSet inputs.workloadName
        [("k8s.score.dev/workload-name", inputs.workloadName)] inputs.podTemplate.labels
        ((mapLookup inputs.podTemplate.labels "app.kubernetes.io/instance").getD "")
        (inputs.workloadName ++ "-headless-svc") inputs.podTemplate
        inputs.volumeClaimTemplates], ?_, by simp⟩
    simp [ConvertInputsToManifest, h, hne, heq]

/-- Witness for claim C9: the zero-container workload converts successfully
both with the default Deployment kind and with an explicit StatefulSet
annotation. -/
theorem ConvertInputsToManifest_zero_containers_witness :
    (∃ ms, ConvertInputsToManifest exInputsC9 = .ok ms ∧ ms ≠ [])
    ∧ (∃ ms, ConvertInputsToManifest
        ⟨"empty-app", ⟨[], [], ⟨[], []⟩⟩, [], [],
          [("k8s.score.dev/kind", Value.str (strBytes "StatefulSet"))]⟩ = .ok ms ∧ ms ≠ []) :=
  ⟨ConvertInputsToManifest_zero_containers exInputsC9 (Or.inl rfl) rfl,
   ConvertInputsToManifest_zero_containers
     ⟨"empty-app", ⟨[], [], ⟨[], []⟩⟩, [], [],
       [("k8s.score.dev/kind", Value.str (strBytes "StatefulSet"))]⟩ (Or.inr rfl) rfl⟩

end ScoreK8s
